import Mathlib

/-!
Shallow embedding of the Vkav signal-processing pipeline (`src/Proccess.cpp`)
and proofs about it.

Modelling conventions:
* `float` values are modelled as exact real numbers (`ℝ`); rounding is not
  modelled.  IEEE-754 special values matter for the two division sites in the
  source (the `smoothingFactor` constructor expression and the kernel
  smoother's normalisation `lBuffer[i] /= sum`), so those divisions are
  performed in the type `EFloat`, which adjoins `+inf`, `-inf` and `NaN` to the
  finite reals with the IEEE rules for division by zero.
* `size_t` / `uint32_t` values are modelled as `ℕ`.  No computation in the
  claims' reach overflows 64-bit arithmetic, so wrap-around is not modelled.
* C++ `(int)` casts of floating values truncate toward zero; this is `itrunc`.
* arrays are modelled as functions from `ℕ`; an in-place loop becomes either a
  pointwise update (when iterations are independent) or a structural-recursion
  fold mirroring the loop body.
-/

namespace Vkav

open ComplexConjugate

/-- Construction-time configuration of the pipeline, mirroring the fields of
`ProccessSettings` read by `Proccess::ProccessImpl::ProccessImpl`. -/
structure ProccessSettings where
  inputSize : ℕ
  outputSize : ℕ
  channels : ℕ
  amplitude : ℝ
  smoothingLevel : ℝ

/-- Length of each magnitude spectrum: `inputSize / 2` (integer division), the
index range written by `magnitudes` and read by `equalise`/`calculateVolume`. -/
def half (cfg : ProccessSettings) : ℕ := cfg.inputSize / 2

/-- Idealised IEEE-754 value: a finite real (exact, no rounding) or one of the
special values `+inf`, `-inf`, `NaN`. -/
inductive EFloat where
  | finite (x : ℝ)
  | posInf
  | negInf
  | nan

namespace EFloat

/-- Test mirroring `std::isnan`. -/
def isNaN : EFloat → Bool
  | nan => true
  | _ => false

/-- Predicate holding exactly on finite values. -/
def IsFinite : EFloat → Prop
  | finite _ => True
  | _ => False

/-- Comparison `0 ≤ x` in IEEE semantics: false on `NaN` and `-inf`. -/
def Nonneg : EFloat → Prop
  | finite x => 0 ≤ x
  | posInf => True
  | negInf => False
  | nan => False

open Classical in
/-- Division with the IEEE-754 special-value rules relevant to this code base:
a nonzero finite value divided by (positive) zero gives a signed infinity and
`0/0` gives `NaN`.  The finite/finite case is exact real division.  (Signed
zero is not modelled: the source only ever divides by zero values that arise
as `+0`.) -/
noncomputable def div : EFloat → EFloat → EFloat
  | finite a, finite b =>
    if b = 0 then (if a = 0 then nan else if 0 < a then posInf else negInf)
    else finite (a / b)
  | nan, _ => nan
  | _, nan => nan
  | posInf, posInf => nan
  | posInf, negInf => nan
  | negInf, posInf => nan
  | negInf, negInf => nan
  | posInf, finite b => if b < 0 then negInf else posInf
  | negInf, finite b => if b < 0 then posInf else negInf
  | finite _, posInf => finite 0
  | finite _, negInf => finite 0

end EFloat

/-- Numerator of the constructor expression for `smoothingFactor`
(line 24–26): `inputSize * inputSize * 0.125f`. -/
noncomputable def sfNum (cfg : ProccessSettings) : ℝ :=
  ((cfg.inputSize * cfg.inputSize : ℕ) : ℝ) * 0.125

/-- Denominator of the constructor expression for `smoothingFactor`:
`smoothingLevel * smoothedSize * smoothingLevel * smoothedSize`, where
`smoothedSize = outputSize`. -/
noncomputable def sfDen (cfg : ProccessSettings) : ℝ :=
  cfg.smoothingLevel * (cfg.outputSize : ℝ) * cfg.smoothingLevel * (cfg.outputSize : ℝ)

/-- The member `smoothingFactor` as the float computed by the constructor,
with IEEE division semantics (the denominator can be zero). -/
noncomputable def smoothingFactorF (cfg : ProccessSettings) : EFloat :=
  EFloat.div (.finite (sfNum cfg)) (.finite (sfDen cfg))

/-- The value of `smoothingFactor` as an exact real, used by the kernel
smoother's arithmetic in configurations where the factor is finite
(`sfDen cfg ≠ 0`). -/
noncomputable def smoothingFactor (cfg : ProccessSettings) : ℝ :=
  sfNum cfg / sfDen cfg

/-- The guard on line 34, `if (!std::isnan(smoothingFactor)) smooth(audioData)`:
the smoothing stage of `proccessSignal` is skipped exactly when this is
`true`. -/
noncomputable def smoothingSkipped (cfg : ProccessSettings) : Bool :=
  (smoothingFactorF cfg).isNaN

/-- C++ conversion of a floating value to `int`: truncation toward zero. -/
noncomputable def itrunc (x : ℝ) : ℤ :=
  if 0 ≤ x then ⌊x⌋ else -⌊-x⌋

/-- The local `const float oldSize = inputSize / 2` of `kernelSmooth`
(integer division happens before the conversion to float). -/
noncomputable def oldSize (cfg : ProccessSettings) : ℝ := (half cfg : ℝ)

/-- The local `radius` of `kernelSmooth` (line 124):
`sqrtf(-logf(0.05f) / smoothingFactor) * oldSize / smoothedSize`. -/
noncomputable def radius (cfg : ProccessSettings) : ℝ :=
  Real.sqrt (-Real.log 0.05 / smoothingFactor cfg) * oldSize cfg / (cfg.outputSize : ℝ)

/-- The window centre `i * oldSize / smoothedSize` appearing on lines 128–129. -/
noncomputable def scenter (cfg : ProccessSettings) (i : ℕ) : ℝ :=
  (i : ℝ) * oldSize cfg / (cfg.outputSize : ℝ)

/-- Lower bound of the smoothing window (line 128):
`std::max((int)0, (int)(i * oldSize / smoothedSize - radius))`. -/
noncomputable def smin (cfg : ProccessSettings) (i : ℕ) : ℕ :=
  (max 0 (itrunc (scenter cfg i - radius cfg))).toNat

/-- Upper bound of the smoothing window (line 129):
`std::min((int)oldSize, (int)(i * oldSize / smoothedSize + radius))`. -/
noncomputable def smax (cfg : ProccessSettings) (i : ℕ) : ℕ :=
  (min ((half cfg : ℤ)) (itrunc (scenter cfg i + radius cfg))).toNat

/-- The loop-body local `distance` (line 133): `i - j * smoothedSize / oldSize`,
where `j * smoothedSize` is exact integer arithmetic. -/
noncomputable def sdist (cfg : ProccessSettings) (i j : ℕ) : ℝ :=
  (i : ℝ) - ((j * cfg.outputSize : ℕ) : ℝ) / oldSize cfg

/-- The Gaussian weight (line 134): `expf(-distance * distance * smoothingFactor)`. -/
noncomputable def sweight (cfg : ProccessSettings) (i j : ℕ) : ℝ :=
  Real.exp (-sdist cfg i j * sdist cfg i j * smoothingFactor cfg)

/-- The inner loop of `kernelSmooth` (lines 132–138) for one channel:
starting at index `j` with `n` iterations left, accumulate
`(acc + src j * wt j, sum + wt j)`. -/
noncomputable def smoothGo (src wt : ℕ → ℝ) : ℕ → ℕ → ℝ × ℝ → ℝ × ℝ
  | _, 0, st => st
  | j, n + 1, st => smoothGo src wt (j + 1) n (st.1 + src j * wt j, st.2 + wt j)

/-- Result of the inner loop of `kernelSmooth` at output index `i`:
the pair (weighted accumulation into `lBuffer[i]`, weight total `sum`). -/
noncomputable def smoothSums (cfg : ProccessSettings) (src : ℕ → ℝ) (i : ℕ) : ℝ × ℝ :=
  smoothGo src (sweight cfg i) (smin cfg i) (smax cfg i - smin cfg i) (0, 0)

/-- The caller-visible smoothed value at output index `i` (one channel): the
loop accumulation divided by the weight sum (`lBuffer[i] /= sum`, line 139),
with IEEE semantics for the unguarded division. -/
noncomputable def kernelSmoothOut (cfg : ProccessSettings) (src : ℕ → ℝ) (i : ℕ) : EFloat :=
  EFloat.div (.finite (smoothSums cfg src i).1) (.finite (smoothSums cfg src i).2)

/-- Window of source indices described by the specification text: the real
interval `[i*scale - radius, i*scale + radius)` intersected with
`[0, inputSize/2)`.  (This follows the spec's words, for comparison with the
window the code actually iterates over.) -/
noncomputable def specWindow (cfg : ProccessSettings) (i : ℕ) : Finset ℕ :=
  @Finset.filter ℕ
    (fun j => scenter cfg i - radius cfg ≤ (j : ℝ) ∧ (j : ℝ) < scenter cfg i + radius cfg)
    (Classical.decPred _) (Finset.range (half cfg))

/-- Smoothed value as described by the specification text: Gaussian-weighted
average over `specWindow`.  (Spec-side definition, for comparison only.) -/
noncomputable def specSmoothOut (cfg : ProccessSettings) (src : ℕ → ℝ) (i : ℕ) : ℝ :=
  (∑ j ∈ specWindow cfg i, src j * sweight cfg i j) / ∑ j ∈ specWindow cfg i, sweight cfg i j

/-- The equaliser weight of bin `n` (line 107):
`0.08f * amplitude * log10f(2.f * n / inputSize + 1.05f)`. -/
noncomputable def eqWeight (cfg : ProccessSettings) (n : ℕ) : ℝ :=
  0.08 * cfg.amplitude * Real.logb 10 (2 * (n : ℝ) / (cfg.inputSize : ℝ) + 1.05)

/-- The `equalise` stage (lines 105–111): bins `[0, inputSize/2)` are scaled by
`eqWeight`; other indices of the buffer are untouched. -/
noncomputable def equaliseBuf (cfg : ProccessSettings) (buf : ℕ → ℝ) : ℕ → ℝ :=
  fun n => if n < half cfg then buf n * eqWeight cfg n else buf n

/-- Left fold mirroring `std::accumulate(buf, buf + n, 0.f)`. -/
noncomputable def accumFold (buf : ℕ → ℝ) : ℕ → ℝ
  | 0 => 0
  | n + 1 => accumFold buf n + buf n

/-- The `calculateVolume` stage for one channel (lines 113–118):
`accumulate(buf, buf + inputSize/2, 0.f) / inputSize`. -/
noncomputable def volumeOf (cfg : ProccessSettings) (buf : ℕ → ℝ) : ℝ :=
  accumFold buf (half cfg) / (cfg.inputSize : ℝ)

/-- The window-function coefficient set in the constructor (line 21):
`M_PI / (inputSize - 1)` (with `size_t` subtraction; `inputSize ≥ 1` in any
meaningful configuration, so the wrap-around case is not modelled). -/
noncomputable def wfCoeff (cfg : ProccessSettings) : ℝ :=
  Real.pi / ((cfg.inputSize - 1 : ℕ) : ℝ)

/-- The dual-mode `windowFunction` (lines 60–70): in mono the buffer holds
`inputSize` real samples, in stereo `inputSize` complex samples (`2*inputSize`
floats); sample `n` is scaled by `pow(sinf(wfCoeff * n), 2)`. -/
noncomputable def windowedBuf (cfg : ProccessSettings) (b : ℕ → ℝ) : ℕ → ℝ :=
  if cfg.channels = 1 then
    fun n => if n < cfg.inputSize then b n * Real.sin (wfCoeff cfg * (n : ℝ)) ^ 2 else b n
  else
    fun p => if p < 2 * cfg.inputSize then b p * Real.sin (wfCoeff cfg * ((p / 2 : ℕ) : ℝ)) ^ 2
      else b p

/-- Reinterpretation of a float buffer as an array of `std::complex<float>`
(the `reinterpret_cast` on line 73): element `k` has real part `b (2k)` and
imaginary part `b (2k+1)`. -/
def complexAt (b : ℕ → ℝ) (k : ℕ) : ℂ := ⟨b (2 * k), b (2 * k + 1)⟩

/-- The twiddle base of a butterfly stage (line 157):
`std::exp(std::complex<float>(0.f, -2.0 * M_PI / m))`. -/
noncomputable def wm (m : ℕ) : ℂ :=
  Complex.exp (((-2 * Real.pi / (m : ℝ) : ℝ) : ℂ) * Complex.I)

/-- One butterfly stage of `fft` (lines 156–167) with block length `m`, acting
on positions `p < N`: the code's in-place loop writes each position exactly
once, reading only values of the same block from before the stage, so the
stage is the parallel update below (`w = wm^j` after `j` multiplications). -/
noncomputable def stage (N m : ℕ) (a : ℕ → ℂ) : ℕ → ℂ := fun p =>
  if p < N then
    (if p % m < m / 2 then a p + wm m ^ (p % m) * a (p + m / 2)
     else a (p - m / 2) - wm m ^ (p % m - m / 2) * a p)
  else a p

/-- The fallback bit-twiddling computation of `numBits` in `bitReverseShuffle`
(lines 179–183); this is the path actually compiled, since
`#ifdef __builtin_ctz` is false (`__builtin_ctz` is a compiler builtin, not a
preprocessor macro). -/
def numBits (size : ℕ) : ℕ :=
  15 - (if size &&& 0x00FF ≠ 0 then 8 else 0) - (if size &&& 0x0F0F ≠ 0 then 4 else 0)
    - (if size &&& 0x3333 ≠ 0 then 2 else 0) - (if size &&& 0x5555 ≠ 0 then 1 else 0)

/-- `reverseBits(val, n)` (lines 195–202): `n` iterations of
`reversed = 2*reversed + ((val & (1 << i)) != 0)` for `i = 0, …, n-1`. -/
def reverseBits (val : ℕ) : ℕ → ℕ
  | 0 => 0
  | n + 1 => 2 * reverseBits val n + (if val.testBit n then 1 else 0)

/-- `std::swap(first[i], first[j])` on a function-modelled array. -/
def swapFn (a : ℕ → ℂ) (i j : ℕ) : ℕ → ℂ := fun p =>
  if p = i then a j else if p = j then a i else a p

/-- The swap loop of `bitReverseShuffle` (lines 186–189) after processing
indices `i = 0, …, k-1`: at step `i`, positions `i` and `rev i` are swapped
when `i < rev i`. -/
def shuffleLoop (rev : ℕ → ℕ) (a : ℕ → ℂ) : ℕ → (ℕ → ℂ)
  | 0 => a
  | k + 1 =>
    if k < rev k then swapFn (shuffleLoop rev a k) k (rev k) else shuffleLoop rev a k

/-- `bitReverseShuffle(first, size)` (lines 170–190), with `numBits` from the
compiled fallback path. -/
def bitReverseShuffle (size : ℕ) (a : ℕ → ℂ) : ℕ → ℂ :=
  shuffleLoop (fun i => reverseBits i (numBits size)) a size

/-- The stage loop of `fft` (lines 156–167): `for (m = 2; m <= size; m <<= 1)`
applies `stage` for each block length; modelled by recursion on the current
`m` (the entry point calls it with `m = 2`, and `m` doubles each step, so the
`2 ≤ m` conjunct in the guard is invariantly true and only forces
termination). -/
noncomputable def fftFrom (N m : ℕ) (a : ℕ → ℂ) : ℕ → ℂ :=
  if h : 2 ≤ m ∧ m ≤ N then fftFrom N (2 * m) (stage N m a) else a
termination_by N + 1 - m
decreasing_by omega

/-- `Proccess::ProccessImpl::fft(first, size)` (lines 154–168): bit-reverse
shuffle followed by the butterfly stages. -/
noncomputable def fftC (size : ℕ) (a : ℕ → ℂ) : ℕ → ℂ :=
  fftFrom size 2 (bitReverseShuffle size a)

/-- Stage iteration indexed by the stage exponent (helper for proofs):
`stages N s` applies the butterflies with `m = 2, 4, …, 2^s` in order, which
is what `fftFrom N 2` performs when `N = 2^s`. -/
noncomputable def stages (N : ℕ) : ℕ → (ℕ → ℂ) → (ℕ → ℂ)
  | 0, a => a
  | s + 1, a => stage N (2 ^ (s + 1)) (stages N s a)

/-- The unit-modulus exponential `e^(-2·π·i·q)` used by the reference DFT. -/
noncomputable def cexp2pi (q : ℝ) : ℂ :=
  Complex.exp (((-2 * Real.pi * q : ℝ) : ℂ) * Complex.I)

/-- Reference discrete Fourier transform:
`(dft N x) r = ∑_{j<N} x j · e^(-2·π·i·j·r/N)`. -/
noncomputable def dft (N : ℕ) (x : ℕ → ℂ) (r : ℕ) : ℂ :=
  ∑ j ∈ Finset.range N, x j * cexp2pi ((j : ℝ) * (r : ℝ) / (N : ℝ))

/-- Modelled from the spec: the repository implements no inverse transform;
§8 of the specification describes the "conjugate-and-rescale trick"
`inverse(z) = conj(fft(conj z)) / N`, which this definition follows (on top of
the source's `fft`). -/
noncomputable def invFFT (N : ℕ) (z : ℕ → ℂ) : ℕ → ℂ := fun j =>
  conj (fftC N (fun p => conj (z p)) j) / (N : ℂ)

/-- The complex array `magnitudes` runs `fft` over: in mono the first
`inputSize/2` complex values, in stereo all `inputSize` (lines 74–91). -/
noncomputable def magPost (cfg : ProccessSettings) (b : ℕ → ℝ) : ℕ → ℂ :=
  if cfg.channels = 1 then fftC (half cfg) (complexAt b) else fftC cfg.inputSize (complexAt b)

/-- The mono ("Weaver") reconstruction of bin `r` (lines 78–84):
`X = F + w*G` with `F = 0.5*(input[r] + conj(input[N/2-r]))`,
`G = (0 + 0.5i)*(conj(input[N/2-r]) - input[r])` and
`w = exp((0, -2*π*r/inputSize))`. -/
noncomputable def monoX (cfg : ProccessSettings) (X : ℕ → ℂ) (r : ℕ) : ℂ :=
  (0.5 : ℂ) * (X r + conj (X (half cfg - r))) +
    Complex.exp (((-2 * Real.pi * (r : ℝ) / (cfg.inputSize : ℝ) : ℝ) : ℂ) * Complex.I) *
      (((0.5 : ℂ) * Complex.I) * (conj (X (half cfg - r)) - X r))

/-- The stereo left-channel bin value (line 94):
`(input[i] + conj(input[inputSize-i])) * 0.5f`. -/
noncomputable def stereoLVal (cfg : ProccessSettings) (X : ℕ → ℂ) (i : ℕ) : ℂ :=
  (X i + conj (X (cfg.inputSize - i))) * (0.5 : ℂ)

/-- The stereo right-channel bin value (line 97):
`complex(0, 0.5) * (conj(input[inputSize-i]) - input[i])`. -/
noncomputable def stereoRVal (cfg : ProccessSettings) (X : ℕ → ℂ) (i : ℕ) : ℂ :=
  ((0.5 : ℂ) * Complex.I) * (conj (X (cfg.inputSize - i)) - X i)

/-- `lBuffer` after the per-bin loop of `magnitudes` (lines 78–99): bins
`[1, inputSize/2)` receive the mono or stereo magnitude, other indices keep
their previous contents `oldL`. -/
noncomputable def magLoopL (cfg : ProccessSettings) (b : ℕ → ℝ) (oldL : ℕ → ℝ) : ℕ → ℝ :=
  fun n =>
    if 1 ≤ n ∧ n < half cfg then
      (if cfg.channels = 1 then Complex.abs (monoX cfg (magPost cfg b) n)
       else Complex.abs (stereoLVal cfg (magPost cfg b) n))
    else oldL n

/-- `rBuffer` after the per-bin loop of `magnitudes`; in mono the loop copies
the just-written left value (`rBuffer[r] = lBuffer[r]`, line 87). -/
noncomputable def magLoopR (cfg : ProccessSettings) (b : ℕ → ℝ) (oldR : ℕ → ℝ) : ℕ → ℝ :=
  fun n =>
    if 1 ≤ n ∧ n < half cfg then
      (if cfg.channels = 1 then Complex.abs (monoX cfg (magPost cfg b) n)
       else Complex.abs (stereoRVal cfg (magPost cfg b) n))
    else oldR n

/-- `lBuffer` at the end of `magnitudes`, after line 101
(`lBuffer[0] = rBuffer[1]`). -/
noncomputable def magFinalL (cfg : ProccessSettings) (b oldL oldR : ℕ → ℝ) : ℕ → ℝ :=
  Function.update (magLoopL cfg b oldL) 0 (magLoopR cfg b oldR 1)

/-- `rBuffer` at the end of `magnitudes`, after line 102
(`rBuffer[0] = lBuffer[1]`, reading the left buffer as updated by line 101). -/
noncomputable def magFinalR (cfg : ProccessSettings) (b oldL oldR : ℕ → ℝ) : ℕ → ℝ :=
  Function.update (magLoopR cfg b oldR) 0 (magFinalL cfg b oldL oldR 1)

/-- Configuration with `smoothingLevel = 0` (and `inputSize = 1024`,
`outputSize = 64`, stereo, unit amplitude). -/
def cfg0 : ProccessSettings := ⟨1024, 64, 2, 1, 0⟩

/-- Configuration with the small positive smoothing level `1/4` (and
`inputSize = 1024`, `outputSize = 64`): its `smoothingFactor` is the finite
value `512` and its smoothing radius lies strictly between `0` and `1`. -/
noncomputable def cfgE : ProccessSettings := ⟨1024, 64, 2, 1, 0.25⟩

/-- Mono configuration `inputSize = 4`, `outputSize = 1`, unit amplitude and
smoothing level: its `smoothingFactor` is `2` and its smoothing radius lies
strictly between `2` and `3`, so the single output window is `[0, 2)`. -/
noncomputable def cfgW : ProccessSettings := ⟨4, 1, 1, 1, 1⟩

/-! Basic lemmas about the embedded definitions. -/

theorem EFloat.div_finite (a b : ℝ) :
    EFloat.div (.finite a) (.finite b) =
      if b = 0 then (if a = 0 then .nan else if 0 < a then .posInf else .negInf)
      else .finite (a / b) := rfl

theorem neg_log_smoothCutoff : -Real.log 0.05 = Real.log 20 := by
  rw [show (0.05 : ℝ) = (20 : ℝ)⁻¹ by norm_num, Real.log_inv, neg_neg]

theorem log_twenty_pos : 0 < Real.log 20 := Real.log_pos (by norm_num)

theorem two_lt_log_twenty : 2 < Real.log 20 := by
  rw [Real.lt_log_iff_exp_lt (by norm_num)]
  have h2 : Real.exp 2 = Real.exp 1 ^ 2 := by
    rw [← Real.exp_nat_mul]; norm_num
  have h := Real.exp_one_lt_d9
  nlinarith [Real.exp_pos 1]

theorem log_twenty_lt : Real.log 20 < 4.5 := by
  rw [Real.log_lt_iff_lt_exp (by norm_num)]
  have h4 : Real.exp 4 = Real.exp 1 ^ 4 := by
    rw [← Real.exp_nat_mul]; norm_num
  have h45 : Real.exp 4 < Real.exp 4.5 := Real.exp_lt_exp.mpr (by norm_num)
  have h : (2.7 : ℝ) < Real.exp 1 := by
    have := Real.exp_one_gt_d9; nlinarith
  have hp : (2.7 : ℝ) ^ 4 < Real.exp 1 ^ 4 := pow_lt_pow_left₀ h (by norm_num) (by norm_num)
  nlinarith

theorem itrunc_of_nonneg {x : ℝ} (h : 0 ≤ x) : itrunc x = ⌊x⌋ := if_pos h

theorem itrunc_of_neg {x : ℝ} (h : x < 0) : itrunc x = -⌊-x⌋ := if_neg (not_le.mpr h)

theorem sum_shift (f : ℕ → ℝ) (n j : ℕ) :
    ∑ k ∈ Finset.range (n + 1), f (j + k) = f j + ∑ k ∈ Finset.range n, f (j + 1 + k) := by
  rw [Finset.sum_range_succ']
  have h1 : (∑ k ∈ Finset.range n, f (j + (k + 1))) = ∑ k ∈ Finset.range n, f (j + 1 + k) :=
    Finset.sum_congr rfl fun k _ => by rw [show j + (k + 1) = j + 1 + k by omega]
  rw [h1, show j + 0 = j by omega, add_comm]

theorem smoothGo_spec (src wt : ℕ → ℝ) :
    ∀ (n j : ℕ) (st : ℝ × ℝ),
      smoothGo src wt j n st =
        (st.1 + ∑ k ∈ Finset.range n, src (j + k) * wt (j + k),
         st.2 + ∑ k ∈ Finset.range n, wt (j + k)) := by
  intro n
  induction n with
  | zero => intro j st; simp [smoothGo]
  | succ n ih =>
    intro j st
    rw [smoothGo, ih]
    refine Prod.ext ?_ ?_
    · show st.1 + src j * wt j + ∑ k ∈ Finset.range n, src (j + 1 + k) * wt (j + 1 + k) = _
      rw [sum_shift (fun p => src p * wt p) n j]; ring
    · show st.2 + wt j + ∑ k ∈ Finset.range n, wt (j + 1 + k) = _
      rw [sum_shift wt n j]; ring

theorem smoothSums_eq (cfg : ProccessSettings) (src : ℕ → ℝ) (i : ℕ) :
    smoothSums cfg src i =
      (∑ j ∈ Finset.Ico (smin cfg i) (smax cfg i), src j * sweight cfg i j,
       ∑ j ∈ Finset.Ico (smin cfg i) (smax cfg i), sweight cfg i j) := by
  unfold smoothSums
  rw [smoothGo_spec]
  rw [Finset.sum_Ico_eq_sum_range, Finset.sum_Ico_eq_sum_range]
  simp

theorem sweight_pos (cfg : ProccessSettings) (i j : ℕ) : 0 < sweight cfg i j :=
  Real.exp_pos _

theorem smoothWeightSum_pos (cfg : ProccessSettings) (i : ℕ) (h : smin cfg i < smax cfg i) :
    0 < ∑ j ∈ Finset.Ico (smin cfg i) (smax cfg i), sweight cfg i j :=
  Finset.sum_pos (fun j _ => sweight_pos cfg i j) (Finset.nonempty_Ico.mpr h)

theorem kernelSmoothOut_eq (cfg : ProccessSettings) (src : ℕ → ℝ) (i : ℕ)
    (h : smin cfg i < smax cfg i) :
    kernelSmoothOut cfg src i =
      .finite ((∑ j ∈ Finset.Ico (smin cfg i) (smax cfg i), src j * sweight cfg i j) /
        ∑ j ∈ Finset.Ico (smin cfg i) (smax cfg i), sweight cfg i j) := by
  unfold kernelSmoothOut
  rw [smoothSums_eq, EFloat.div_finite, if_neg (ne_of_gt (smoothWeightSum_pos cfg i h))]

theorem kernelSmoothOut_empty (cfg : ProccessSettings) (src : ℕ → ℝ) (i : ℕ)
    (h : smax cfg i ≤ smin cfg i) :
    kernelSmoothOut cfg src i = .nan := by
  unfold kernelSmoothOut
  rw [smoothSums_eq, Finset.Ico_eq_empty (not_lt.mpr h)]
  simp [EFloat.div_finite]

theorem kernelSmoothOut_const (cfg : ProccessSettings) (i : ℕ) (c : ℝ)
    (h : smin cfg i < smax cfg i) :
    kernelSmoothOut cfg (fun _ => c) i = .finite c := by
  rw [kernelSmoothOut_eq cfg _ i h]
  have hS := smoothWeightSum_pos cfg i h
  congr 1
  rw [← Finset.mul_sum, mul_div_assoc, div_self (ne_of_gt hS), mul_one]

theorem smax_le_half (cfg : ProccessSettings) (i : ℕ) : smax cfg i ≤ half cfg := by
  unfold smax
  rw [Int.toNat_le]
  exact min_le_left _ _

theorem kernelSmoothOut_nonneg (cfg : ProccessSettings) (src : ℕ → ℝ) (i : ℕ)
    (h : smin cfg i < smax cfg i) (hsrc : ∀ j, j < half cfg → 0 ≤ src j) :
    (kernelSmoothOut cfg src i).Nonneg := by
  rw [kernelSmoothOut_eq cfg src i h]
  show 0 ≤ _ / _
  refine div_nonneg (Finset.sum_nonneg fun j hj => ?_) (le_of_lt (smoothWeightSum_pos cfg i h))
  have hj2 : j < half cfg := lt_of_lt_of_le (Finset.mem_Ico.mp hj).2 (smax_le_half cfg i)
  exact mul_nonneg (hsrc j hj2) (le_of_lt (sweight_pos cfg i j))

theorem kernelSmoothOut_isFinite (cfg : ProccessSettings) (src : ℕ → ℝ) (i : ℕ)
    (h : smin cfg i < smax cfg i) :
    (kernelSmoothOut cfg src i).IsFinite := by
  rw [kernelSmoothOut_eq cfg src i h]
  trivial

theorem scenter_nonneg (cfg : ProccessSettings) (i : ℕ) : 0 ≤ scenter cfg i := by
  unfold scenter oldSize
  positivity

theorem smin_lt_smax_of_one_le_radius (cfg : ProccessSettings) (i : ℕ)
    (hr : 1 ≤ radius cfg) (hh : 1 ≤ half cfg) (hi : i < cfg.outputSize) :
    smin cfg i < smax cfg i := by
  have hc0 : 0 ≤ scenter cfg i := scenter_nonneg cfg i
  have houtn : 0 < cfg.outputSize := by omega
  have hout : (0 : ℝ) < (cfg.outputSize : ℝ) := by exact_mod_cast houtn
  have hhalfR : (0 : ℝ) < (half cfg : ℝ) := by exact_mod_cast hh
  have hiR : (i : ℝ) < (cfg.outputSize : ℝ) := by exact_mod_cast hi
  have hchalf : scenter cfg i < (half cfg : ℝ) := by
    unfold scenter oldSize
    rw [div_lt_iff₀ hout]
    nlinarith
  have hfc0 : (0 : ℤ) ≤ ⌊scenter cfg i⌋ := Int.floor_nonneg.mpr hc0
  have hminle : max 0 (itrunc (scenter cfg i - radius cfg)) ≤ ⌊scenter cfg i⌋ := by
    rcases le_or_lt 0 (scenter cfg i - radius cfg) with hcr | hcr
    · rw [itrunc_of_nonneg hcr]
      have h1 : ⌊scenter cfg i - radius cfg⌋ ≤ ⌊scenter cfg i⌋ :=
        Int.floor_le_floor (by linarith)
      omega
    · rw [itrunc_of_neg hcr, show -(scenter cfg i - radius cfg) = radius cfg - scenter cfg i
        by ring]
      have h1 : (0 : ℤ) ≤ ⌊radius cfg - scenter cfg i⌋ := Int.floor_nonneg.mpr (by linarith)
      omega
  have hmaxge : ⌊scenter cfg i⌋ + 1 ≤ min ((half cfg : ℤ)) (itrunc (scenter cfg i + radius cfg)) := by
    have hcr : 0 ≤ scenter cfg i + radius cfg := by linarith
    rw [itrunc_of_nonneg hcr]
    refine le_min ?_ ?_
    · have : ⌊scenter cfg i⌋ < (half cfg : ℤ) := Int.floor_lt.mpr (by exact_mod_cast hchalf)
      omega
    · refine Int.le_floor.mpr ?_
      have := Int.floor_le (scenter cfg i)
      push_cast
      linarith
  unfold smin smax
  omega

theorem cfgE_inputSize : cfgE.inputSize = 1024 := rfl

theorem cfgE_outputSize : cfgE.outputSize = 64 := rfl

theorem cfgE_amplitude : cfgE.amplitude = 1 := rfl

theorem cfgE_smoothingLevel : cfgE.smoothingLevel = 0.25 := rfl

theorem half_cfgE : half cfgE = 512 := rfl

theorem smoothingFactor_cfgE : smoothingFactor cfgE = 512 := by
  unfold smoothingFactor sfNum sfDen
  rw [cfgE_inputSize, cfgE_outputSize, cfgE_smoothingLevel]
  norm_num

theorem radius_cfgE_pos : 0 < radius cfgE := by
  unfold radius oldSize
  rw [half_cfgE, smoothingFactor_cfgE, cfgE_outputSize, neg_log_smoothCutoff]
  have hs : 0 < Real.sqrt (Real.log 20 / 512) :=
    Real.sqrt_pos.mpr (by positivity)
  positivity

theorem radius_cfgE_lt_one : radius cfgE < 1 := by
  unfold radius oldSize
  rw [half_cfgE, smoothingFactor_cfgE, cfgE_outputSize, neg_log_smoothCutoff]
  have hs : Real.sqrt (Real.log 20 / 512) < 1 / 8 := by
    rw [Real.sqrt_lt' (by norm_num)]
    have := log_twenty_lt
    norm_num
    linarith
  have h0 : 0 ≤ Real.sqrt (Real.log 20 / 512) := Real.sqrt_nonneg _
  push_cast
  nlinarith

theorem scenter_cfgE_zero : scenter cfgE 0 = 0 := by
  unfold scenter
  norm_num

theorem scenter_cfgE_one : scenter cfgE 1 = 8 := by
  unfold scenter oldSize
  rw [half_cfgE, cfgE_outputSize]
  norm_num

theorem smin_cfgE_zero : smin cfgE 0 = 0 := by
  unfold smin
  rw [scenter_cfgE_zero]
  rw [itrunc_of_neg (by linarith [radius_cfgE_pos]),
    show -((0 : ℝ) - radius cfgE) = radius cfgE by ring]
  rw [Int.floor_eq_zero_iff.mpr ⟨le_of_lt radius_cfgE_pos, radius_cfgE_lt_one⟩]
  decide

theorem smax_cfgE_zero : smax cfgE 0 = 0 := by
  unfold smax
  rw [scenter_cfgE_zero, half_cfgE]
  rw [show (0 : ℝ) + radius cfgE = radius cfgE by ring,
    itrunc_of_nonneg (le_of_lt radius_cfgE_pos)]
  rw [Int.floor_eq_zero_iff.mpr ⟨le_of_lt radius_cfgE_pos, radius_cfgE_lt_one⟩]
  decide

theorem smin_cfgE_one : smin cfgE 1 = 7 := by
  unfold smin
  rw [scenter_cfgE_one]
  rw [itrunc_of_nonneg (by linarith [radius_cfgE_lt_one] : (0:ℝ) ≤ 8 - radius cfgE)]
  have h7 : ⌊(8 : ℝ) - radius cfgE⌋ = 7 := by
    rw [Int.floor_eq_iff]
    constructor
    · push_cast
      linarith [radius_cfgE_lt_one]
    · push_cast
      linarith [radius_cfgE_pos]
  rw [h7]
  decide

theorem smax_cfgE_one : smax cfgE 1 = 8 := by
  unfold smax
  rw [scenter_cfgE_one, half_cfgE]
  rw [itrunc_of_nonneg (by linarith [radius_cfgE_pos] : (0:ℝ) ≤ 8 + radius cfgE)]
  have h8 : ⌊(8 : ℝ) + radius cfgE⌋ = 8 := by
    rw [Int.floor_eq_iff]
    constructor
    · push_cast
      linarith [radius_cfgE_pos]
    · push_cast
      linarith [radius_cfgE_lt_one]
  rw [h8]
  decide

theorem cfgW_inputSize : cfgW.inputSize = 4 := rfl

theorem cfgW_outputSize : cfgW.outputSize = 1 := rfl

theorem cfgW_smoothingLevel : cfgW.smoothingLevel = 1 := rfl

theorem half_cfgW : half cfgW = 2 := rfl

theorem smoothingFactor_cfgW : smoothingFactor cfgW = 2 := by
  unfold smoothingFactor sfNum sfDen
  rw [cfgW_inputSize, cfgW_outputSize, cfgW_smoothingLevel]
  norm_num

theorem two_le_radius_cfgW : 2 ≤ radius cfgW := by
  unfold radius oldSize
  rw [half_cfgW, smoothingFactor_cfgW, cfgW_outputSize, neg_log_smoothCutoff]
  have hs : 1 ≤ Real.sqrt (Real.log 20 / 2) := by
    rw [Real.le_sqrt' (by norm_num)]
    have := two_lt_log_twenty
    norm_num
    linarith
  push_cast
  nlinarith

theorem radius_cfgW_lt_three : radius cfgW < 3 := by
  unfold radius oldSize
  rw [half_cfgW, smoothingFactor_cfgW, cfgW_outputSize, neg_log_smoothCutoff]
  have hs : Real.sqrt (Real.log 20 / 2) < 3 / 2 := by
    rw [Real.sqrt_lt' (by norm_num)]
    have := log_twenty_lt
    norm_num
    linarith
  have h0 : 0 ≤ Real.sqrt (Real.log 20 / 2) := Real.sqrt_nonneg _
  push_cast
  nlinarith

theorem floor_radius_cfgW : ⌊radius cfgW⌋ = 2 := by
  rw [Int.floor_eq_iff]
  constructor
  · push_cast
    exact two_le_radius_cfgW
  · push_cast
    linarith [radius_cfgW_lt_three]

theorem scenter_cfgW_zero : scenter cfgW 0 = 0 := by
  unfold scenter
  norm_num

theorem smin_cfgW_zero : smin cfgW 0 = 0 := by
  unfold smin
  rw [scenter_cfgW_zero]
  rw [itrunc_of_neg (by linarith [two_le_radius_cfgW]),
    show -((0 : ℝ) - radius cfgW) = radius cfgW by ring, floor_radius_cfgW]
  decide

theorem smax_cfgW_zero : smax cfgW 0 = 2 := by
  unfold smax
  rw [scenter_cfgW_zero, half_cfgW]
  rw [show (0 : ℝ) + radius cfgW = radius cfgW by ring,
    itrunc_of_nonneg (by linarith [two_le_radius_cfgW]), floor_radius_cfgW]
  decide

theorem smoothingFactorF_of_den_ne (cfg : ProccessSettings) (h : sfDen cfg ≠ 0) :
    smoothingFactorF cfg = .finite (smoothingFactor cfg) := by
  unfold smoothingFactorF smoothingFactor
  rw [EFloat.div_finite, if_neg h]

theorem smoothingFactorF_posInf_of (cfg : ProccessSettings) (h1 : sfDen cfg = 0)
    (h2 : 0 < sfNum cfg) : smoothingFactorF cfg = .posInf := by
  unfold smoothingFactorF
  rw [EFloat.div_finite, if_pos h1, if_neg (ne_of_gt h2), if_pos h2]

theorem sfDen_of_level_zero (cfg : ProccessSettings) (h : cfg.smoothingLevel = 0) :
    sfDen cfg = 0 := by
  unfold sfDen
  rw [h]
  ring

theorem sfNum_pos (cfg : ProccessSettings) (h : 0 < cfg.inputSize) : 0 < sfNum cfg := by
  unfold sfNum
  have h1 : 0 < cfg.inputSize * cfg.inputSize := Nat.mul_pos h h
  have h2 : (0 : ℝ) < ((cfg.inputSize * cfg.inputSize : ℕ) : ℝ) := by exact_mod_cast h1
  nlinarith

theorem sfDen_cfgE : sfDen cfgE = 256 := by
  unfold sfDen
  rw [cfgE_outputSize, cfgE_smoothingLevel]
  norm_num

theorem eqWeight_pos (cfg : ProccessSettings) (ha : 0 < cfg.amplitude) (n : ℕ) :
    0 < eqWeight cfg n := by
  unfold eqWeight
  have h0 : (0 : ℝ) ≤ 2 * (n : ℝ) / (cfg.inputSize : ℝ) := by positivity
  have harg : (1 : ℝ) < 2 * (n : ℝ) / (cfg.inputSize : ℝ) + 1.05 := by linarith
  have hlb := Real.logb_pos (by norm_num : (1 : ℝ) < 10) harg
  have h08 : (0 : ℝ) < 0.08 * cfg.amplitude := mul_pos (by norm_num) ha
  exact mul_pos h08 hlb

theorem eqWeight_nonneg (cfg : ProccessSettings) (ha : 0 ≤ cfg.amplitude) (n : ℕ) :
    0 ≤ eqWeight cfg n := by
  unfold eqWeight
  have h0 : (0 : ℝ) ≤ 2 * (n : ℝ) / (cfg.inputSize : ℝ) := by positivity
  have hlb := Real.logb_nonneg (by norm_num : (1 : ℝ) < 10)
    (by linarith : (1 : ℝ) ≤ 2 * (n : ℝ) / (cfg.inputSize : ℝ) + 1.05)
  have h08 : (0 : ℝ) ≤ 0.08 * cfg.amplitude := mul_nonneg (by norm_num) ha
  exact mul_nonneg h08 hlb

theorem eqWeight_strictMono (cfg : ProccessSettings) (ha : 0 < cfg.amplitude)
    (hN : 0 < cfg.inputSize) {n m : ℕ} (hnm : n < m) : eqWeight cfg n < eqWeight cfg m := by
  unfold eqWeight
  have hNR : (0 : ℝ) < (cfg.inputSize : ℝ) := by exact_mod_cast hN
  have harg1 : (0 : ℝ) < 2 * (n : ℝ) / (cfg.inputSize : ℝ) + 1.05 := by positivity
  have hnmR : (n : ℝ) < (m : ℝ) := by exact_mod_cast hnm
  have hlt : 2 * (n : ℝ) / (cfg.inputSize : ℝ) + 1.05 <
      2 * (m : ℝ) / (cfg.inputSize : ℝ) + 1.05 := by
    have h2 : 2 * (n : ℝ) / (cfg.inputSize : ℝ) < 2 * (m : ℝ) / (cfg.inputSize : ℝ) := by
      apply div_lt_div_of_pos_right ?_ hNR
      linarith
    linarith
  have hlb := Real.logb_lt_logb (by norm_num : (1 : ℝ) < 10) harg1 hlt
  have h08 : (0 : ℝ) < 0.08 * cfg.amplitude := mul_pos (by norm_num) ha
  calc 0.08 * cfg.amplitude * Real.logb 10 (2 * (n : ℝ) / (cfg.inputSize : ℝ) + 1.05)
      < 0.08 * cfg.amplitude * Real.logb 10 (2 * (m : ℝ) / (cfg.inputSize : ℝ) + 1.05) := by
        exact mul_lt_mul_of_pos_left hlb h08

theorem accumFold_eq_sum (buf : ℕ → ℝ) : ∀ n, accumFold buf n = ∑ k ∈ Finset.range n, buf k := by
  intro n
  induction n with
  | zero => simp [accumFold]
  | succ n ih => rw [accumFold, ih, Finset.sum_range_succ]

theorem volumeOf_eq (cfg : ProccessSettings) (buf : ℕ → ℝ) :
    volumeOf cfg buf = (∑ k ∈ Finset.range (half cfg), buf k) / (cfg.inputSize : ℝ) := by
  unfold volumeOf
  rw [accumFold_eq_sum]

theorem equaliseBuf_nonneg (cfg : ProccessSettings) (buf : ℕ → ℝ) (ha : 0 ≤ cfg.amplitude)
    (hb : ∀ n, n < half cfg → 0 ≤ buf n) (n : ℕ) (hn : n < half cfg) :
    0 ≤ equaliseBuf cfg buf n := by
  unfold equaliseBuf
  rw [if_pos hn]
  exact mul_nonneg (hb n hn) (eqWeight_nonneg cfg ha n)

theorem magFinalL_zero (cfg : ProccessSettings) (b oldL oldR : ℕ → ℝ) :
    magFinalL cfg b oldL oldR 0 = magLoopR cfg b oldR 1 := by
  unfold magFinalL
  rw [Function.update_same]

theorem magFinalR_one (cfg : ProccessSettings) (b oldL oldR : ℕ → ℝ) :
    magFinalR cfg b oldL oldR 1 = magLoopR cfg b oldR 1 := by
  unfold magFinalR
  rw [Function.update_noteq one_ne_zero]

theorem magFinalR_zero (cfg : ProccessSettings) (b oldL oldR : ℕ → ℝ) :
    magFinalR cfg b oldL oldR 0 = magFinalL cfg b oldL oldR 1 := by
  unfold magFinalR
  rw [Function.update_same]

theorem magFinalL_one (cfg : ProccessSettings) (b oldL oldR : ℕ → ℝ) :
    magFinalL cfg b oldL oldR 1 = magLoopL cfg b oldL 1 := by
  unfold magFinalL
  rw [Function.update_noteq one_ne_zero]

theorem magLoopL_abs (cfg : ProccessSettings) (b oldL : ℕ → ℝ) (n : ℕ)
    (hn : 1 ≤ n ∧ n < half cfg) : 0 ≤ magLoopL cfg b oldL n := by
  unfold magLoopL
  rw [if_pos hn]
  split
  · exact Complex.abs.nonneg _
  · exact Complex.abs.nonneg _

theorem magLoopR_abs (cfg : ProccessSettings) (b oldR : ℕ → ℝ) (n : ℕ)
    (hn : 1 ≤ n ∧ n < half cfg) : 0 ≤ magLoopR cfg b oldR n := by
  unfold magLoopR
  rw [if_pos hn]
  split
  · exact Complex.abs.nonneg _
  · exact Complex.abs.nonneg _

theorem magFinalL_nonneg (cfg : ProccessSettings) (b oldL oldR : ℕ → ℝ)
    (h4 : 4 ≤ cfg.inputSize) (n : ℕ) (hn : n < half cfg) :
    0 ≤ magFinalL cfg b oldL oldR n := by
  have hhalf : 2 ≤ half cfg := by
    unfold half
    omega
  rcases Nat.eq_zero_or_pos n with rfl | hpos
  · rw [magFinalL_zero]
    exact magLoopR_abs cfg b oldR 1 ⟨le_refl 1, by omega⟩
  · unfold magFinalL
    rw [Function.update_noteq (by omega)]
    exact magLoopL_abs cfg b oldL n ⟨hpos, hn⟩

theorem magFinalR_nonneg (cfg : ProccessSettings) (b oldL oldR : ℕ → ℝ)
    (h4 : 4 ≤ cfg.inputSize) (n : ℕ) (hn : n < half cfg) :
    0 ≤ magFinalR cfg b oldL oldR n := by
  have hhalf : 2 ≤ half cfg := by
    unfold half
    omega
  rcases Nat.eq_zero_or_pos n with rfl | hpos
  · rw [magFinalR_zero, magFinalL_one]
    exact magLoopL_abs cfg b oldL 1 ⟨le_refl 1, by omega⟩
  · unfold magFinalR
    rw [Function.update_noteq (by omega)]
    exact magLoopR_abs cfg b oldR n ⟨hpos, hn⟩

theorem specWindow_cfgE_one : specWindow cfgE 1 = {8} := by
  unfold specWindow
  rw [Finset.filter_congr_decidable]
  ext j
  rw [Finset.mem_filter, Finset.mem_range, Finset.mem_singleton, half_cfgE, scenter_cfgE_one]
  constructor
  · rintro ⟨hj1, hj2, hj3⟩
    have h7 : (7 : ℝ) < (j : ℝ) := by linarith [radius_cfgE_lt_one]
    have h9 : (j : ℝ) < 9 := by linarith [radius_cfgE_lt_one]
    have h7n : 7 < j := by exact_mod_cast h7
    have h9n : j < 9 := by exact_mod_cast h9
    omega
  · rintro rfl
    refine ⟨by omega, ?_, ?_⟩
    · push_cast
      linarith [radius_cfgE_pos]
    · push_cast
      linarith [radius_cfgE_pos]

theorem code_window_cfgE_one : kernelSmoothOut cfgE (fun j => (j : ℝ)) 1 = .finite 7 := by
  rw [kernelSmoothOut_eq cfgE _ 1 (by rw [smin_cfgE_one, smax_cfgE_one]; omega)]
  rw [smin_cfgE_one, smax_cfgE_one]
  congr 1
  rw [show Finset.Ico 7 8 = ({7} : Finset ℕ) by decide]
  rw [Finset.sum_singleton, Finset.sum_singleton]
  rw [mul_div_cancel_right₀ _ (ne_of_gt (sweight_pos cfgE 1 7))]
  norm_num

theorem spec_window_cfgE_one_val : specSmoothOut cfgE (fun j => (j : ℝ)) 1 = 8 := by
  unfold specSmoothOut
  rw [specWindow_cfgE_one, Finset.sum_singleton, Finset.sum_singleton]
  rw [mul_div_cancel_right₀ _ (ne_of_gt (sweight_pos cfgE 1 8))]
  norm_num

theorem magLoopR_eq_magLoopL_mono (cfg : ProccessSettings) (b oldL oldR : ℕ → ℝ)
    (hch : cfg.channels = 1) (hn : 1 ≤ 1 ∧ 1 < half cfg) :
    magLoopR cfg b oldR 1 = magLoopL cfg b oldL 1 := by
  unfold magLoopR magLoopL
  rw [if_pos hn, if_pos hn, if_pos hch, if_pos hch]

/-! Claim-level theorems. -/

/-- Claim C1, counterexample: with `smoothingLevel = 0` (configuration `cfg0`,
`inputSize = 1024 > 0`) the precomputed `smoothingFactor` is the IEEE value
`+inf`, not `NaN`; `std::isnan` is false on it, so `proccessSignal` does NOT
skip the smoothing stage, contrary to the claim. -/
theorem smoothingLevel_zero_infinity_cex :
    cfg0.smoothingLevel = 0 ∧ smoothingFactorF cfg0 = .posInf ∧
      (smoothingFactorF cfg0).isNaN = false ∧ smoothingSkipped cfg0 = false := by
  have h1 : smoothingFactorF cfg0 = .posInf :=
    smoothingFactorF_posInf_of cfg0 (sfDen_of_level_zero cfg0 rfl)
      (sfNum_pos cfg0 (by show (0 : ℕ) < 1024; norm_num))
  exact ⟨rfl, h1, by rw [h1]; rfl, by unfold smoothingSkipped; rw [h1]; rfl⟩

/-- Claim C1 (corrected): if the pipeline is constructed with
`smoothingLevel = 0` and a positive `inputSize`, the precomputed
`smoothingFactor = (inputSize² * 0.125) / (smoothingLevel² * outputSize²)`
evaluates to `+infinity` (a positive finite number divided by `+0`), not `NaN`;
consequently the `isnan` guard in `proccessSignal` is false and the smoothing
stage is NOT skipped. -/
theorem smoothingLevel_zero_not_skipped (cfg : ProccessSettings)
    (hsl : cfg.smoothingLevel = 0) (hN : 0 < cfg.inputSize) :
    smoothingFactorF cfg = .posInf ∧ smoothingSkipped cfg = false := by
  have h1 : smoothingFactorF cfg = .posInf :=
    smoothingFactorF_posInf_of cfg (sfDen_of_level_zero cfg hsl) (sfNum_pos cfg hN)
  exact ⟨h1, by unfold smoothingSkipped; rw [h1]; rfl⟩

/-- Witness for C1's theorem at the concrete configuration
`inputSize = 512, outputSize = 32, smoothingLevel = 0`. -/
theorem smoothingLevel_zero_not_skipped_witness :
    smoothingFactorF ⟨512, 32, 1, 1, 0⟩ = .posInf ∧
      smoothingSkipped ⟨512, 32, 1, 1, 0⟩ = false :=
  smoothingLevel_zero_not_skipped ⟨512, 32, 1, 1, 0⟩ rfl (by show (0 : ℕ) < 512; norm_num)

/-- Claim C2, counterexample: configuration `cfgE` has the finite (non-NaN)
`smoothingFactor` `512`, yet on the all-zero (finite, non-negative) spectrum
the smoother's output at index `0` is `NaN`: its window
`[smin, smax) = [0, 0)` is empty, so the unguarded division `lBuffer[0] /= sum`
is `0 / 0`.  The division is neither clamped nor guarded. -/
theorem kernelSmooth_writes_nan_cex :
    (smoothingFactorF cfgE).isNaN = false ∧
      kernelSmoothOut cfgE (fun _ => 0) 0 = .nan ∧
      ¬(kernelSmoothOut cfgE (fun _ => 0) 0).IsFinite := by
  have h1 : smoothingFactorF cfgE = .finite (smoothingFactor cfgE) :=
    smoothingFactorF_of_den_ne cfgE (by rw [sfDen_cfgE]; norm_num)
  have h2 : kernelSmoothOut cfgE (fun _ => 0) 0 = .nan :=
    kernelSmoothOut_empty cfgE _ 0 (by rw [smax_cfgE_zero, smin_cfgE_zero])
  exact ⟨by rw [h1]; rfl, h2, by rw [h2]; exact fun h => h⟩

/-- Claim C2 (corrected): the smoother's division by the window weight-sum is
unguarded; the output at index `i` is finite provided the truncated window
`[smin i, smax i)` is nonempty (then the weight-sum is strictly positive).
When the window is empty the division is `0/0` and a `NaN` is written. -/
theorem kernelSmooth_finite_of_nonempty_windows (cfg : ProccessSettings)
    (hw : ∀ i, i < cfg.outputSize → smin cfg i < smax cfg i) (src : ℕ → ℝ) (i : ℕ)
    (hi : i < cfg.outputSize) : (kernelSmoothOut cfg src i).IsFinite :=
  kernelSmoothOut_isFinite cfg src i (hw i hi)

/-- Witness for C2's theorem at configuration `cfgW` (whose only window is
`[0, 2)`). -/
theorem kernelSmooth_finite_of_nonempty_windows_witness :
    (kernelSmoothOut cfgW (fun j => (j : ℝ)) 0).IsFinite :=
  kernelSmooth_finite_of_nonempty_windows cfgW
    (by
      intro i hi
      rw [cfgW_outputSize] at hi
      have hi0 : i = 0 := by omega
      rw [hi0, smin_cfgW_zero, smax_cfgW_zero]
      omega)
    (fun j => (j : ℝ)) 0 (by rw [cfgW_outputSize]; omega)

/-- Claim C4, counterexample: at configuration `cfgE` and output index `1`
(window centre `8`, radius strictly between `0` and `1`) the code iterates the
truncation-derived window `[(int)(8-radius), (int)(8+radius)) = {7}` and
outputs `7` on the identity spectrum, while the window stated by the claim,
`[8-radius, 8+radius) ∩ ℕ = {8}`, would give `8`. -/
theorem kernelSmooth_spec_window_mismatch_cex :
    kernelSmoothOut cfgE (fun j => (j : ℝ)) 1 = .finite 7 ∧
      specSmoothOut cfgE (fun j => (j : ℝ)) 1 = 8 ∧ (7 : ℝ) ≠ 8 :=
  ⟨code_window_cfgE_one, spec_window_cfgE_one_val, by norm_num⟩

/-- Claim C4 (corrected): when a window is nonempty, the smoothed value is the
weight-normalised Gaussian sum over the window
`[max(0, trunc(i*scale - radius)), min(inputSize/2, trunc(i*scale + radius)))`
— i.e. with the endpoints truncated toward zero and clamped (the sets `smin`,
`smax`), not over the real interval `[i*scale - radius, i*scale + radius)`
intersected with `[0, inputSize/2)`. -/
theorem kernelSmooth_truncated_window_formula (cfg : ProccessSettings) (src : ℕ → ℝ)
    (i : ℕ) (h : smin cfg i < smax cfg i) :
    kernelSmoothOut cfg src i =
      .finite ((∑ j ∈ Finset.Ico (smin cfg i) (smax cfg i), src j * sweight cfg i j) /
        ∑ j ∈ Finset.Ico (smin cfg i) (smax cfg i), sweight cfg i j) :=
  kernelSmoothOut_eq cfg src i h

/-- Witness for C4's theorem at configuration `cfgW`, output index `0`. -/
theorem kernelSmooth_truncated_window_formula_witness :
    kernelSmoothOut cfgW (fun j => (j : ℝ)) 0 =
      .finite ((∑ j ∈ Finset.Ico (smin cfgW 0) (smax cfgW 0), (j : ℝ) * sweight cfgW 0 j) /
        ∑ j ∈ Finset.Ico (smin cfgW 0) (smax cfgW 0), sweight cfgW 0 j) :=
  kernelSmooth_truncated_window_formula cfgW (fun j => (j : ℝ)) 0
    (by rw [smin_cfgW_zero, smax_cfgW_zero]; omega)

/-- Claim C5, counterexample: `cfgE` has the valid smoothing level `1/4 > 0`,
yet on the constant spectrum `1` the smoother outputs `NaN` (not the constant)
at output index `0`, because that index's window is empty. -/
theorem flat_spectrum_smoothing_cex :
    0 < cfgE.smoothingLevel ∧ kernelSmoothOut cfgE (fun _ => 1) 0 = .nan ∧
      EFloat.nan ≠ EFloat.finite 1 :=
  ⟨by rw [cfgE_smoothingLevel]; norm_num,
   kernelSmoothOut_empty cfgE _ 0 (by rw [smax_cfgE_zero, smin_cfgE_zero]),
   fun h => EFloat.noConfusion h⟩

/-- Claim C5 (corrected): on a constant spectrum the smoother outputs the same
constant at every output index — including truncated edge windows — provided
every window is nonempty; `1 ≤ radius` suffices for that (the counterexample
shows a valid `smoothingLevel > 0` with `radius < 1` and an empty window at
index `0`, which yields `NaN` instead). -/
theorem flat_spectrum_smoothing_constant (cfg : ProccessSettings) (c : ℝ)
    (hr : 1 ≤ radius cfg) (hh : 1 ≤ half cfg) (i : ℕ) (hi : i < cfg.outputSize) :
    kernelSmoothOut cfg (fun _ => c) i = .finite c :=
  kernelSmoothOut_const cfg i c (smin_lt_smax_of_one_le_radius cfg i hr hh hi)

/-- Witness for C5's theorem at configuration `cfgW` (radius between 2 and 3),
constant `5`. -/
theorem flat_spectrum_smoothing_constant_witness :
    kernelSmoothOut cfgW (fun _ => (5 : ℝ)) 0 = .finite 5 :=
  flat_spectrum_smoothing_constant cfgW 5 (by linarith [two_le_radius_cfgW])
    (by rw [half_cfgW]; omega) 0 (by rw [cfgW_outputSize]; omega)

/-- Claim C6 (confirmed): for fixed `amplitude > 0` (and nonzero `inputSize`)
the equaliser weight `0.08 * amplitude * log10(2n/inputSize + 1.05)` is
strictly increasing in the bin index over `[0, inputSize/2)`, and positive at
every bin index, since the `log10` argument is at least `1.05 > 1`. -/
theorem eqWeight_strict_mono_and_pos (cfg : ProccessSettings) (ha : 0 < cfg.amplitude)
    (hN : 0 < cfg.inputSize) :
    (∀ n m : ℕ, n < m → m < half cfg → eqWeight cfg n < eqWeight cfg m) ∧
      ∀ n : ℕ, 0 < eqWeight cfg n :=
  ⟨fun n m hnm _ => eqWeight_strictMono cfg ha hN hnm, fun n => eqWeight_pos cfg ha n⟩

/-- Witness for C6's theorem at `inputSize = 16`, `amplitude = 2`, comparing
bins 0 and 1. -/
theorem eqWeight_strict_mono_and_pos_witness :
    eqWeight ⟨16, 8, 1, 2, 1⟩ 0 < eqWeight ⟨16, 8, 1, 2, 1⟩ 1 ∧
      0 < eqWeight ⟨16, 8, 1, 2, 1⟩ 3 := by
  have h := eqWeight_strict_mono_and_pos ⟨16, 8, 1, 2, 1⟩
    (by show (0 : ℝ) < 2; norm_num) (by show (0 : ℕ) < 16; norm_num)
  exact ⟨h.1 0 1 (by norm_num) (by show (1 : ℕ) < 8; norm_num), h.2 3⟩

/-- Claim C7 (confirmed): each channel's volume equals the sum of the spectrum
over `[0, inputSize/2)` divided by `inputSize` (not by the array length
`inputSize/2`); it is non-negative on non-negative spectra, and scales
linearly under uniform scalar multiplication of the spectrum. -/
theorem volume_spec (cfg : ProccessSettings) (buf : ℕ → ℝ) :
    volumeOf cfg buf = (∑ k ∈ Finset.range (half cfg), buf k) / (cfg.inputSize : ℝ) ∧
      ((∀ n, n < half cfg → 0 ≤ buf n) → 0 ≤ volumeOf cfg buf) ∧
      ∀ c : ℝ, volumeOf cfg (fun n => c * buf n) = c * volumeOf cfg buf := by
  refine ⟨volumeOf_eq cfg buf, ?_, ?_⟩
  · intro hb
    rw [volumeOf_eq]
    refine div_nonneg (Finset.sum_nonneg fun k hk => hb k (Finset.mem_range.mp hk)) ?_
    positivity
  · intro c
    rw [volumeOf_eq, volumeOf_eq, ← Finset.mul_sum, mul_div_assoc]

/-- Witness for C7's theorem: non-negativity at a concrete configuration and
constant spectrum. -/
theorem volume_spec_witness : 0 ≤ volumeOf ⟨8, 4, 1, 1, 1⟩ (fun _ => 2) :=
  (volume_spec ⟨8, 4, 1, 1, 1⟩ (fun _ => 2)).2.1 (fun n _ => by norm_num)

/-- Claim C8 (confirmed): after `magnitudes`, bin 0 of each channel is copied
from bin 1 of the other channel (`L[0] = R[1]`, `R[0] = L[1]`), and in mono
mode (with `inputSize ≥ 4`, so that bin 1 is written by the loop) bin 0 of
the left channel equals its own bin 1. -/
theorem magnitudes_bin_zero_convention (cfg : ProccessSettings) (b oldL oldR : ℕ → ℝ) :
    magFinalL cfg b oldL oldR 0 = magFinalR cfg b oldL oldR 1 ∧
      magFinalR cfg b oldL oldR 0 = magFinalL cfg b oldL oldR 1 ∧
      (cfg.channels = 1 → 4 ≤ cfg.inputSize →
        magFinalL cfg b oldL oldR 0 = magFinalL cfg b oldL oldR 1) := by
  refine ⟨by rw [magFinalL_zero, magFinalR_one], magFinalR_zero cfg b oldL oldR, ?_⟩
  intro hch h4
  have hhalf : 2 ≤ half cfg := by
    unfold half
    omega
  rw [magFinalL_zero, magFinalL_one]
  exact magLoopR_eq_magLoopL_mono cfg b oldL oldR hch ⟨le_refl 1, by omega⟩

/-- Witness for C8's theorem: the mono conjunct at a concrete mono
configuration with the zero buffer. -/
theorem magnitudes_bin_zero_convention_witness :
    magFinalL ⟨8, 4, 1, 1, 1⟩ (fun _ => 0) (fun _ => 0) (fun _ => 0) 0 =
      magFinalL ⟨8, 4, 1, 1, 1⟩ (fun _ => 0) (fun _ => 0) (fun _ => 0) 1 :=
  (magnitudes_bin_zero_convention ⟨8, 4, 1, 1, 1⟩ (fun _ => 0) (fun _ => 0) (fun _ => 0)).2.2
    rfl (by show (4 : ℕ) ≤ 8; norm_num)

/-- Claim C9, counterexample: with `amplitude = 1 ≥ 0`, configuration `cfgE`
reaches a post-smoothing state in which the caller-visible value at output
index `0` is `NaN`, which is not `≥ 0`: the pipeline does write a
non-non-negative value. -/
theorem pipeline_nonneg_cex :
    (0 : ℝ) ≤ cfgE.amplitude ∧
      ¬(kernelSmoothOut cfgE
          (equaliseBuf cfgE
            (magFinalL cfgE (windowedBuf cfgE fun _ => 0) (fun _ => 0) fun _ => 0))
          0).Nonneg := by
  refine ⟨by rw [cfgE_amplitude]; norm_num, ?_⟩
  rw [kernelSmoothOut_empty cfgE _ 0 (by rw [smax_cfgE_zero, smin_cfgE_zero])]
  exact fun h => h

/-- Claim C9 (corrected): with `amplitude ≥ 0` and `inputSize ≥ 4`, every
value the pipeline writes is non-negative through the demultiplexer, equaliser
and volume stages; the smoothed outputs are non-negative as well provided
every smoothing window is nonempty (in the degenerate empty-window case the
unguarded division writes `NaN`, which is not `≥ 0`). -/
theorem pipeline_nonneg (cfg : ProccessSettings) (b oldL oldR : ℕ → ℝ)
    (ha : 0 ≤ cfg.amplitude) (h4 : 4 ≤ cfg.inputSize)
    (hw : ∀ i, i < cfg.outputSize → smin cfg i < smax cfg i) :
    (∀ n, n < half cfg → 0 ≤ magFinalL cfg (windowedBuf cfg b) oldL oldR n ∧
        0 ≤ magFinalR cfg (windowedBuf cfg b) oldL oldR n) ∧
      (∀ n, n < half cfg →
        0 ≤ equaliseBuf cfg (magFinalL cfg (windowedBuf cfg b) oldL oldR) n ∧
        0 ≤ equaliseBuf cfg (magFinalR cfg (windowedBuf cfg b) oldL oldR) n) ∧
      (0 ≤ volumeOf cfg (equaliseBuf cfg (magFinalL cfg (windowedBuf cfg b) oldL oldR)) ∧
        0 ≤ volumeOf cfg (equaliseBuf cfg (magFinalR cfg (windowedBuf cfg b) oldL oldR))) ∧
      ∀ i, i < cfg.outputSize →
        (kernelSmoothOut cfg
            (equaliseBuf cfg (magFinalL cfg (windowedBuf cfg b) oldL oldR)) i).Nonneg ∧
        (kernelSmoothOut cfg
            (equaliseBuf cfg (magFinalR cfg (windowedBuf cfg b) oldL oldR)) i).Nonneg := by
  have hL : ∀ n, n < half cfg → 0 ≤ magFinalL cfg (windowedBuf cfg b) oldL oldR n :=
    fun n hn => magFinalL_nonneg cfg _ oldL oldR h4 n hn
  have hR : ∀ n, n < half cfg → 0 ≤ magFinalR cfg (windowedBuf cfg b) oldL oldR n :=
    fun n hn => magFinalR_nonneg cfg _ oldL oldR h4 n hn
  have hEL : ∀ n, n < half cfg →
      0 ≤ equaliseBuf cfg (magFinalL cfg (windowedBuf cfg b) oldL oldR) n :=
    fun n hn => equaliseBuf_nonneg cfg _ ha hL n hn
  have hER : ∀ n, n < half cfg →
      0 ≤ equaliseBuf cfg (magFinalR cfg (windowedBuf cfg b) oldL oldR) n :=
    fun n hn => equaliseBuf_nonneg cfg _ ha hR n hn
  refine ⟨fun n hn => ⟨hL n hn, hR n hn⟩, fun n hn => ⟨hEL n hn, hER n hn⟩, ⟨?_, ?_⟩, ?_⟩
  · rw [volumeOf_eq]
    refine div_nonneg (Finset.sum_nonneg fun k hk => hEL k (Finset.mem_range.mp hk)) ?_
    positivity
  · rw [volumeOf_eq]
    refine div_nonneg (Finset.sum_nonneg fun k hk => hER k (Finset.mem_range.mp hk)) ?_
    positivity
  · intro i hi
    exact ⟨kernelSmoothOut_nonneg cfg _ i (hw i hi) hEL,
      kernelSmoothOut_nonneg cfg _ i (hw i hi) hER⟩

/-- Witness for C9's theorem at configuration `cfgW`. -/
theorem pipeline_nonneg_witness :
    (kernelSmoothOut cfgW
        (equaliseBuf cfgW
          (magFinalL cfgW (windowedBuf cfgW fun _ => 0) (fun _ => 0) fun _ => 0))
        0).Nonneg :=
  ((pipeline_nonneg cfgW (fun _ => 0) (fun _ => 0) (fun _ => 0)
        (by show (0 : ℝ) ≤ 1; norm_num) (by show (4 : ℕ) ≤ 4; omega)
        (by
          intro i hi
          rw [cfgW_outputSize] at hi
          have hi0 : i = 0 := by omega
          rw [hi0, smin_cfgW_zero, smax_cfgW_zero]
          omega)).2.2.2 0 (by rw [cfgW_outputSize]; omega)).1

/-! Bit-reversal and shuffle lemmas. -/

theorem reverseBits_lt (val : ℕ) : ∀ n, reverseBits val n < 2 ^ n := by
  intro n
  induction n with
  | zero => simp [reverseBits]
  | succ n ih =>
    rw [reverseBits, pow_succ]
    split <;> omega

theorem reverseBits_mod (val : ℕ) : ∀ n m, n ≤ m → reverseBits (val % 2 ^ m) n = reverseBits val n := by
  intro n
  induction n with
  | zero => intro m _; rfl
  | succ n ih =>
    intro m hm
    rw [reverseBits, reverseBits, ih m (by omega)]
    congr 1
    rw [Nat.testBit_mod_two_pow]
    simp [show n < m by omega]

theorem reverseBits_bottom (val : ℕ) : ∀ n, reverseBits val (n + 1) = val % 2 * 2 ^ n + reverseBits (val / 2) n := by
  intro n
  induction n with
  | zero =>
    show 2 * reverseBits val 0 + _ = _
    rcases Nat.mod_two_eq_zero_or_one val with h | h <;>
      simp [reverseBits, Nat.testBit_to_div_mod, h]
  | succ n ih =>
    rw [reverseBits, ih, Nat.testBit_add_one]
    rw [show reverseBits (val / 2) (n + 1) = 2 * reverseBits (val / 2) n +
      (if (val / 2).testBit n then 1 else 0) from rfl]
    ring

theorem testBit_high (b u n : ℕ) (hu : u < 2 ^ n) (hb : b ≤ 1) :
    (b * 2 ^ n + u).testBit n = decide (b = 1) := by
  rw [Nat.testBit_to_div_mod]
  have hdiv : (b * 2 ^ n + u) / 2 ^ n = b := by
    rw [mul_comm, Nat.mul_add_div (Nat.pos_pow_of_pos n (by omega)), Nat.div_eq_of_lt hu]
    omega
  rw [hdiv]
  rcases (by omega : b = 0 ∨ b = 1) with rfl | rfl <;> simp

theorem reverseBits_invol (n : ℕ) : ∀ val, val < 2 ^ n → reverseBits (reverseBits val n) n = val := by
  induction n with
  | zero =>
    intro val h
    have : val = 0 := by omega
    subst this
    rfl
  | succ n ih =>
    intro val hval
    rw [reverseBits_bottom val n]
    have hu : reverseBits (val / 2) n < 2 ^ n := reverseBits_lt _ n
    have hb : val % 2 ≤ 1 := by omega
    rw [reverseBits]
    have hmod : (val % 2 * 2 ^ n + reverseBits (val / 2) n) % 2 ^ n = reverseBits (val / 2) n := by
      rw [mul_comm, Nat.mul_add_mod, Nat.mod_eq_of_lt hu]
    have h1 : reverseBits (val % 2 * 2 ^ n + reverseBits (val / 2) n) n =
        reverseBits (reverseBits (val / 2) n) n := by
      rw [← reverseBits_mod (val % 2 * 2 ^ n + reverseBits (val / 2) n) n n le_rfl, hmod]
    rw [h1, ih (val / 2) (by omega), testBit_high (val % 2) (reverseBits (val / 2) n) n hu hb]
    rcases Nat.mod_two_eq_zero_or_one val with h | h <;> rw [h] <;> simp <;> omega

theorem reverseBits_low (j t : ℕ) (hj : j < 2 ^ t) : reverseBits j (t + 1) = 2 * reverseBits j t := by
  rw [reverseBits]
  simp [Nat.testBit_lt_two_pow hj]

theorem reverseBits_high (j t : ℕ) (hj : j < 2 ^ t) :
    reverseBits (2 ^ t + j) (t + 1) = 2 * reverseBits j t + 1 := by
  rw [reverseBits]
  have h1 : reverseBits (2 ^ t + j) t = reverseBits j t := by
    rw [← reverseBits_mod (2 ^ t + j) t t le_rfl, Nat.add_mod_left, Nat.mod_eq_of_lt hj]
  have h2 : (2 ^ t + j).testBit t = true := by
    rw [show 2 ^ t + j = 1 * 2 ^ t + j by ring, testBit_high 1 j t hj le_rfl]
    simp
  rw [h1, h2]
  simp

theorem numBits_two_pow : ∀ k, k < 16 → numBits (2 ^ k) = k := by decide

theorem shuffleLoop_spec (rev : ℕ → ℕ) (size : ℕ)
    (hlt : ∀ i, i < size → rev i < size) (hinv : ∀ i, i < size → rev (rev i) = i)
    (a : ℕ → ℂ) :
    ∀ k, k ≤ size → ∀ p,
      shuffleLoop rev a k p = if p < size ∧ min p (rev p) < k then a (rev p) else a p := by
  intro k
  induction k with
  | zero =>
    intro _ p
    rw [shuffleLoop, if_neg]
    rintro ⟨-, h⟩
    omega
  | succ k ih =>
    intro hk p
    have hks : k < size := hk
    have ihs := ih (le_of_lt hks)
    rw [shuffleLoop]
    by_cases hswap : k < rev k
    · rw [if_pos hswap]
      unfold swapFn
      have hrk : rev k < size := hlt k hks
      have hrrk : rev (rev k) = k := hinv k hks
      by_cases hpk : p = k
      · subst hpk
        rw [if_pos rfl, ihs (rev p), hrrk]
        rw [if_neg (by omega : ¬(rev p < size ∧ min (rev p) p < p))]
        rw [if_pos ⟨hks, by omega⟩]
      · by_cases hprk : p = rev k
        · subst hprk
          rw [if_neg hpk, if_pos rfl, ihs k]
          rw [if_neg (by omega : ¬(k < size ∧ min k (rev k) < k))]
          rw [hrrk, if_pos ⟨hrk, by omega⟩]
        · rw [if_neg hpk, if_neg hprk, ihs p]
          by_cases hps : p < size
          · have hrpk : rev p ≠ k := by
              intro he
              apply hprk
              rw [← hinv p hps, he]
            have hiff : (p < size ∧ min p (rev p) < k) ↔ (p < size ∧ min p (rev p) < k + 1) := by
              constructor
              · rintro ⟨h1, h2⟩
                exact ⟨h1, by omega⟩
              · rintro ⟨h1, h2⟩
                exact ⟨h1, by omega⟩
            rw [if_congr hiff rfl rfl]
          · rw [if_neg (fun h => hps h.1), if_neg (fun h => hps h.1)]
    · rw [if_neg hswap, ihs p]
      have hle : rev k ≤ k := not_lt.mp hswap
      by_cases hps : p < size
      · by_cases hpk : p = k
        · subst hpk
          by_cases heq : rev p = p
          · rw [heq, ite_self, ite_self]
          · have hsl : rev p < p := lt_of_le_of_ne hle heq
            rw [if_pos ⟨hps, by omega⟩, if_pos ⟨hps, by omega⟩]
        · by_cases hrpk : rev p = k
          · have hpek : p = rev k := by rw [← hinv p hps, hrpk]
            have hplt : p < k := by
              have h2 : p ≤ k := by rw [hpek]; exact hle
              omega
            rw [if_pos ⟨hps, by omega⟩, if_pos ⟨hps, by omega⟩]
          · have hiff : (p < size ∧ min p (rev p) < k) ↔ (p < size ∧ min p (rev p) < k + 1) := by
              constructor
              · rintro ⟨h1, h2⟩
                exact ⟨h1, by omega⟩
              · rintro ⟨h1, h2⟩
                exact ⟨h1, by omega⟩
            rw [if_congr hiff rfl rfl]
      · rw [if_neg (fun h => hps h.1), if_neg (fun h => hps h.1)]

theorem bitReverseShuffle_eq (k : ℕ) (hk : k < 16) (a : ℕ → ℂ) (i : ℕ) (hi : i < 2 ^ k) :
    bitReverseShuffle (2 ^ k) a i = a (reverseBits i k) := by
  unfold bitReverseShuffle
  simp only [numBits_two_pow k hk]
  rw [shuffleLoop_spec (fun q => reverseBits q k) (2 ^ k) (fun q _ => reverseBits_lt q k)
    (fun q hq => reverseBits_invol k q hq) a (2 ^ k) le_rfl i]
  rw [if_pos ⟨hi, lt_of_le_of_lt (min_le_left _ _) hi⟩]

/-! Stage-iteration lemmas relating `fftFrom` to `stages` and localising the
butterfly stages to half-arrays. -/

theorem block_reach (m N p : ℕ) (hm : 0 < m) (hdvd : m ∣ N) (hp : p < N)
    (hlow : p % m < m / 2) : p + m / 2 < N := by
  obtain ⟨K, rfl⟩ := hdvd
  have hq : p / m < K := by
    by_contra hc
    push_neg at hc
    have h1 : m * K ≤ m * (p / m) := Nat.mul_le_mul_left m hc
    have h2 : m * (p / m) ≤ p := Nat.mul_div_le p m
    omega
  have h3 : m * (p / m + 1) ≤ m * K := Nat.mul_le_mul_left m hq
  have h4 : m * (p / m + 1) = m * (p / m) + m := by ring
  have h5 := Nat.div_add_mod p m
  omega

theorem stage_congr (N m : ℕ) (hm : 0 < m) (hdvd : m ∣ N) (a b : ℕ → ℂ)
    (hab : ∀ j, j < N → a j = b j) : ∀ p, p < N → stage N m a p = stage N m b p := by
  intro p hp
  unfold stage
  rw [if_pos hp, if_pos hp]
  by_cases hc : p % m < m / 2
  · rw [if_pos hc, if_pos hc, hab p hp, hab (p + m / 2) (block_reach m N p hm hdvd hp hc)]
  · rw [if_neg hc, if_neg hc, hab p hp, hab (p - m / 2) (by omega)]

theorem stages_congr (t : ℕ) : ∀ s, s ≤ t → ∀ (a b : ℕ → ℂ), (∀ j, j < 2 ^ t → a j = b j) →
    ∀ p, p < 2 ^ t → stages (2 ^ t) s a p = stages (2 ^ t) s b p := by
  intro s
  induction s with
  | zero => intro _ a b hab p hp; exact hab p hp
  | succ s ih =>
    intro hs a b hab p hp
    show stage (2 ^ t) (2 ^ (s + 1)) (stages (2 ^ t) s a) p =
      stage (2 ^ t) (2 ^ (s + 1)) (stages (2 ^ t) s b) p
    exact stage_congr (2 ^ t) (2 ^ (s + 1)) (Nat.pos_pow_of_pos _ (by omega))
      (pow_dvd_pow 2 hs) _ _ (fun j hj => ih (by omega) a b hab j hj) p hp

theorem stages_agree (t : ℕ) : ∀ s, s ≤ t → ∀ (a : ℕ → ℂ) p, p < 2 ^ t →
    stages (2 ^ (t + 1)) s a p = stages (2 ^ t) s a p := by
  intro s
  induction s with
  | zero => intro _ a p _; rfl
  | succ s ih =>
    intro hs a p hp
    have hpN : p < 2 ^ (t + 1) := by
      have : (2 : ℕ) ^ t ≤ 2 ^ (t + 1) := Nat.pow_le_pow_right (by omega) (by omega)
      omega
    show stage (2 ^ (t + 1)) (2 ^ (s + 1)) (stages (2 ^ (t + 1)) s a) p =
      stage (2 ^ t) (2 ^ (s + 1)) (stages (2 ^ t) s a) p
    unfold stage
    rw [if_pos hpN, if_pos hp]
    have hdvd : (2 : ℕ) ^ (s + 1) ∣ 2 ^ t := pow_dvd_pow 2 hs
    by_cases hc : p % 2 ^ (s + 1) < 2 ^ (s + 1) / 2
    · rw [if_pos hc, if_pos hc]
      have hreach := block_reach (2 ^ (s + 1)) (2 ^ t) p (Nat.pos_pow_of_pos _ (by omega))
        hdvd hp hc
      rw [ih (by omega) a p hp, ih (by omega) a (p + 2 ^ (s + 1) / 2) hreach]
    · rw [if_neg hc, if_neg hc, ih (by omega) a p hp, ih (by omega) a (p - 2 ^ (s + 1) / 2)
        (by omega)]

theorem stages_shift (t : ℕ) : ∀ s, s ≤ t → ∀ (a : ℕ → ℂ) p, p < 2 ^ t →
    stages (2 ^ (t + 1)) s a (2 ^ t + p) = stages (2 ^ t) s (fun q => a (2 ^ t + q)) p := by
  intro s
  induction s with
  | zero => intro _ a p _; rfl
  | succ s ih =>
    intro hs a p hp
    have hN2 : (2 : ℕ) ^ (t + 1) = 2 ^ t + 2 ^ t := by rw [pow_succ]; ring
    have hpN : 2 ^ t + p < 2 ^ (t + 1) := by omega
    show stage (2 ^ (t + 1)) (2 ^ (s + 1)) (stages (2 ^ (t + 1)) s a) (2 ^ t + p) =
      stage (2 ^ t) (2 ^ (s + 1)) (stages (2 ^ t) s fun q => a (2 ^ t + q)) p
    unfold stage
    rw [if_pos hpN, if_pos hp]
    have hdvd : (2 : ℕ) ^ (s + 1) ∣ 2 ^ t := pow_dvd_pow 2 hs
    have hmod : (2 ^ t + p) % 2 ^ (s + 1) = p % 2 ^ (s + 1) := by
      obtain ⟨K, hK⟩ := hdvd
      rw [hK, Nat.mul_add_mod]
    rw [hmod]
    by_cases hc : p % 2 ^ (s + 1) < 2 ^ (s + 1) / 2
    · rw [if_pos hc, if_pos hc]
      have hreach := block_reach (2 ^ (s + 1)) (2 ^ t) p (Nat.pos_pow_of_pos _ (by omega))
        hdvd hp hc
      rw [show 2 ^ t + p + 2 ^ (s + 1) / 2 = 2 ^ t + (p + 2 ^ (s + 1) / 2) by ring]
      rw [ih (by omega) a p hp, ih (by omega) a (p + 2 ^ (s + 1) / 2) hreach]
    · rw [if_neg hc, if_neg hc]
      have hmle : p % 2 ^ (s + 1) ≤ p := Nat.mod_le p _
      rw [show 2 ^ t + p - 2 ^ (s + 1) / 2 = 2 ^ t + (p - 2 ^ (s + 1) / 2) by omega]
      rw [ih (by omega) a p hp, ih (by omega) a (p - 2 ^ (s + 1) / 2) (by omega)]

theorem fftFrom_stages (t : ℕ) : ∀ d j, j + d = t → ∀ a : ℕ → ℂ,
    fftFrom (2 ^ t) (2 ^ (j + 1)) (stages (2 ^ t) j a) = stages (2 ^ t) t a := by
  intro d
  induction d with
  | zero =>
    intro j hj a
    have hjt : j = t := by omega
    subst hjt
    rw [fftFrom, dif_neg]
    rintro ⟨-, hle⟩
    have : (2 : ℕ) ^ j < 2 ^ (j + 1) := Nat.pow_lt_pow_right (by omega) (by omega)
    omega
  | succ d ih =>
    intro j hj a
    have hg1 : (2 : ℕ) ≤ 2 ^ (j + 1) := by
      have : (2 : ℕ) ^ 1 ≤ 2 ^ (j + 1) := Nat.pow_le_pow_right (by omega) (by omega)
      omega
    have hg2 : (2 : ℕ) ^ (j + 1) ≤ 2 ^ t := Nat.pow_le_pow_right (by omega) (by omega)
    rw [fftFrom, dif_pos ⟨hg1, hg2⟩]
    rw [show 2 * 2 ^ (j + 1) = 2 ^ (j + 1 + 1) by ring]
    rw [show stage (2 ^ t) (2 ^ (j + 1)) (stages (2 ^ t) j a) = stages (2 ^ t) (j + 1) a
      from rfl]
    exact ih (j + 1) (by omega) a

theorem fftC_pow (t : ℕ) (a : ℕ → ℂ) :
    fftC (2 ^ t) a = stages (2 ^ t) t (bitReverseShuffle (2 ^ t) a) := by
  have h := fftFrom_stages t t 0 (by omega) (bitReverseShuffle (2 ^ t) a)
  unfold fftC
  rw [show (2 : ℕ) = 2 ^ (0 + 1) by norm_num]
  exact h

/-! Lemmas about the unit-modulus exponential and the reference DFT. -/

theorem cexp2pi_add (x y : ℝ) : cexp2pi (x + y) = cexp2pi x * cexp2pi y := by
  unfold cexp2pi
  rw [← Complex.exp_add]
  congr 1
  push_cast
  ring

theorem cexp2pi_zero : cexp2pi 0 = 1 := by
  unfold cexp2pi
  rw [show (-2 * Real.pi * (0 : ℝ) : ℝ) = 0 by ring]
  simp

theorem cexp2pi_intCast (n : ℤ) : cexp2pi (n : ℝ) = 1 := by
  unfold cexp2pi
  rw [show ((-2 * Real.pi * ((n : ℤ) : ℝ) : ℝ) : ℂ) * Complex.I =
    ((-n : ℤ) : ℂ) * (2 * (Real.pi : ℂ) * Complex.I) by push_cast; ring]
  exact Complex.exp_int_mul_two_pi_mul_I (-n)

theorem cexp2pi_natCast (n : ℕ) : cexp2pi (n : ℝ) = 1 := by
  have h := cexp2pi_intCast (n : ℤ)
  rwa [show (((n : ℕ) : ℤ) : ℝ) = ((n : ℕ) : ℝ) by push_cast; ring] at h

theorem cexp2pi_half : cexp2pi (1 / 2) = -1 := by
  unfold cexp2pi
  rw [show ((-2 * Real.pi * (1 / 2 : ℝ) : ℝ) : ℂ) * Complex.I =
    -((Real.pi : ℂ) * Complex.I) by push_cast; ring]
  rw [Complex.exp_neg, Complex.exp_pi_mul_I]
  norm_num

theorem cexp2pi_pow (q : ℝ) (n : ℕ) : cexp2pi q ^ n = cexp2pi (n * q) := by
  unfold cexp2pi
  rw [← Complex.exp_nat_mul]
  congr 1
  push_cast
  ring

theorem cexp2pi_conj (q : ℝ) : conj (cexp2pi q) = cexp2pi (-q) := by
  unfold cexp2pi
  rw [← Complex.exp_conj]
  congr 1
  rw [map_mul, Complex.conj_I, Complex.conj_ofReal]
  push_cast
  ring

theorem wm_pow (m r : ℕ) : wm m ^ r = cexp2pi ((r : ℝ) / (m : ℝ)) := by
  have h : wm m = cexp2pi (1 / (m : ℝ)) := by
    unfold wm cexp2pi
    congr 1
    push_cast
    ring
  rw [h, cexp2pi_pow]
  congr 1
  ring

theorem sum_range_even_odd (f : ℕ → ℂ) : ∀ n, ∑ i ∈ Finset.range (2 * n), f i =
    ∑ i ∈ Finset.range n, f (2 * i) + ∑ i ∈ Finset.range n, f (2 * i + 1) := by
  intro n
  induction n with
  | zero => simp
  | succ n ih =>
    rw [show 2 * (n + 1) = 2 * n + 1 + 1 by ring, Finset.sum_range_succ, Finset.sum_range_succ,
      ih, Finset.sum_range_succ, Finset.sum_range_succ]
    ring

theorem dft_split (n : ℕ) (hn : 0 < n) (x : ℕ → ℂ) (r : ℕ) :
    dft (2 * n) x r = dft n (fun j => x (2 * j)) r +
      cexp2pi ((r : ℝ) / (2 * (n : ℝ))) * dft n (fun j => x (2 * j + 1)) r := by
  have hnr : ((n : ℝ)) ≠ 0 := Nat.cast_ne_zero.mpr hn.ne'
  unfold dft
  rw [sum_range_even_odd]
  congr 1
  · refine Finset.sum_congr rfl fun j _ => ?_
    congr 1
    congr 1
    push_cast
    field_simp
    ring
  · rw [Finset.mul_sum]
    refine Finset.sum_congr rfl fun j _ => ?_
    rw [show ((2 * j + 1 : ℕ) : ℝ) * (r : ℝ) / ((2 * n : ℕ) : ℝ) =
      (r : ℝ) / (2 * (n : ℝ)) + (j : ℝ) * (r : ℝ) / (n : ℝ) by push_cast; field_simp; ring]
    rw [cexp2pi_add]
    ring

theorem dft_periodic (N : ℕ) (hN : 0 < N) (x : ℕ → ℂ) (r : ℕ) :
    dft N x (r + N) = dft N x r := by
  have hNr : ((N : ℝ)) ≠ 0 := Nat.cast_ne_zero.mpr hN.ne'
  unfold dft
  refine Finset.sum_congr rfl fun j _ => ?_
  congr 1
  rw [show (j : ℝ) * ((r + N : ℕ) : ℝ) / (N : ℝ) =
    (j : ℝ) * (r : ℝ) / (N : ℝ) + (j : ℕ) by push_cast; field_simp; ring]
  rw [cexp2pi_add, cexp2pi_natCast, mul_one]

theorem cexp2pi_geom (N : ℕ) (hN : 0 < N) (d : ℤ) (hd : d ≠ 0) (hdlt : d.natAbs < N) :
    ∑ p ∈ Finset.range N, cexp2pi ((p : ℝ) * (d : ℝ) / (N : ℝ)) = 0 := by
  have hNr : ((N : ℝ)) ≠ 0 := Nat.cast_ne_zero.mpr hN.ne'
  have hz : ∀ p : ℕ, cexp2pi ((p : ℝ) * (d : ℝ) / (N : ℝ)) =
      cexp2pi ((d : ℝ) / (N : ℝ)) ^ p := by
    intro p
    rw [cexp2pi_pow]
    congr 1
    ring
  rw [Finset.sum_congr rfl fun p _ => hz p]
  have hz1 : cexp2pi ((d : ℝ) / (N : ℝ)) ≠ 1 := by
    unfold cexp2pi
    intro hcon
    rw [Complex.exp_eq_one_iff] at hcon
    obtain ⟨n, hn⟩ := hcon
    have h2 : ((-2 * Real.pi * ((d : ℝ) / (N : ℝ)) : ℝ) : ℂ) * Complex.I =
        ((2 * Real.pi * (n : ℝ) : ℝ) : ℂ) * Complex.I := by
      rw [hn]
      push_cast
      ring
    have h3 : ((-2 * Real.pi * ((d : ℝ) / (N : ℝ)) : ℝ) : ℂ) =
        ((2 * Real.pi * (n : ℝ) : ℝ) : ℂ) := mul_right_cancel₀ Complex.I_ne_zero h2
    have h4 : -2 * Real.pi * ((d : ℝ) / (N : ℝ)) = 2 * Real.pi * (n : ℝ) := by
      exact_mod_cast h3
    have hpi := Real.pi_pos
    have h4b : -2 * Real.pi * (d : ℝ) = 2 * Real.pi * (n : ℝ) * (N : ℝ) := by
      field_simp at h4
      linarith
    have h5sum : 2 * Real.pi * ((d : ℝ) + (n : ℝ) * (N : ℝ)) = 0 := by linarith
    have h5 : (d : ℝ) + (n : ℝ) * (N : ℝ) = 0 := by
      rcases mul_eq_zero.mp h5sum with h | h
      · nlinarith
      · exact h
    have h6 : d = -n * N := by
      have : (d : ℝ) = -(n : ℝ) * (N : ℝ) := by linarith
      exact_mod_cast this
    have h8 : n ≠ 0 := by
      rintro rfl
      simp at h6
      exact hd h6
    have h7 : d.natAbs = n.natAbs * N := by
      rw [h6]
      simp [Int.natAbs_mul]
    have h9 : 1 ≤ n.natAbs := by omega
    have h10 : N ≤ n.natAbs * N := Nat.le_mul_of_pos_left N (by omega)
    omega
  have hzN : cexp2pi ((d : ℝ) / (N : ℝ)) ^ N = 1 := by
    rw [cexp2pi_pow, show (N : ℝ) * ((d : ℝ) / (N : ℝ)) = ((d : ℤ) : ℝ) by field_simp]
    exact cexp2pi_intCast d
  rw [geom_sum_eq hz1, hzN]
  simp

theorem dft_split_even_lt (t : ℕ) (x : ℕ → ℂ) (r : ℕ) :
    dft (2 ^ (t + 1)) x r = dft (2 ^ t) (fun j => x (2 * j)) r +
      wm (2 ^ (t + 1)) ^ r * dft (2 ^ t) (fun j => x (2 * j + 1)) r := by
  have h2 : (2 : ℕ) ^ (t + 1) = 2 * 2 ^ t := by rw [pow_succ]; ring
  rw [h2, dft_split (2 ^ t) (Nat.pos_pow_of_pos _ (by omega)) x r, wm_pow]
  congr 3
  push_cast
  ring

theorem dft_split_odd_ge (t : ℕ) (x : ℕ → ℂ) (r : ℕ) :
    dft (2 ^ (t + 1)) x (2 ^ t + r) = dft (2 ^ t) (fun j => x (2 * j)) r -
      wm (2 ^ (t + 1)) ^ r * dft (2 ^ t) (fun j => x (2 * j + 1)) r := by
  have h2 : (2 : ℕ) ^ (t + 1) = 2 * 2 ^ t := by rw [pow_succ]; ring
  have hpos : 0 < (2 : ℕ) ^ t := Nat.pos_pow_of_pos _ (by omega)
  have hne : ((2 : ℕ) ^ t : ℝ) ≠ 0 := by positivity
  rw [h2, show (2 : ℕ) ^ t + r = r + 2 ^ t by ring,
    dft_split (2 ^ t) hpos x (r + 2 ^ t), dft_periodic (2 ^ t) hpos _ r,
    dft_periodic (2 ^ t) hpos _ r, wm_pow]
  rw [show ((r + 2 ^ t : ℕ) : ℝ) / (2 * ((2 ^ t : ℕ) : ℝ)) =
      (r : ℝ) / ((2 * 2 ^ t : ℕ) : ℝ) + 1 / 2 by
    push_cast
    field_simp
    ring]
  rw [cexp2pi_add, cexp2pi_half]
  ring

theorem stages_rev_dft : ∀ (t : ℕ) (x : ℕ → ℂ) (r : ℕ), r < 2 ^ t →
    stages (2 ^ t) t (fun i => x (reverseBits i t)) r = dft (2 ^ t) x r := by
  intro t
  induction t with
  | zero =>
    intro x r hr
    have h1 : (2 : ℕ) ^ 0 = 1 := rfl
    have hr0 : r = 0 := by omega
    subst hr0
    show x (reverseBits 0 0) = dft 1 x 0
    unfold dft
    rw [Finset.sum_range_one,
      show ((0 : ℕ) : ℝ) * ((0 : ℕ) : ℝ) / ((1 : ℕ) : ℝ) = 0 by norm_num,
      cexp2pi_zero, mul_one]
    rfl
  | succ t ih =>
    intro x r hr
    have hN2 : (2 : ℕ) ^ (t + 1) = 2 ^ t + 2 ^ t := by rw [pow_succ]; ring
    have hS1 : ∀ q, q < 2 ^ t →
        stages (2 ^ (t + 1)) t (fun i => x (reverseBits i (t + 1))) q =
          dft (2 ^ t) (fun j => x (2 * j)) q := by
      intro q hq
      rw [stages_agree t t le_rfl _ q hq]
      rw [stages_congr t t le_rfl _ (fun i => x (2 * reverseBits i t))
        (fun j hj => by rw [reverseBits_low j t hj]) q hq]
      exact ih (fun j => x (2 * j)) q hq
    have hS2 : ∀ q, q < 2 ^ t →
        stages (2 ^ (t + 1)) t (fun i => x (reverseBits i (t + 1))) (2 ^ t + q) =
          dft (2 ^ t) (fun j => x (2 * j + 1)) q := by
      intro q hq
      rw [stages_shift t t le_rfl _ q hq]
      rw [stages_congr t t le_rfl _ (fun i => x (2 * reverseBits i t + 1))
        (fun j hj => by
          show x (reverseBits (2 ^ t + j) (t + 1)) = _
          rw [reverseBits_high j t hj]) q hq]
      exact ih (fun j => x (2 * j + 1)) q hq
    show stage (2 ^ (t + 1)) (2 ^ (t + 1))
      (stages (2 ^ (t + 1)) t fun i => x (reverseBits i (t + 1))) r = dft (2 ^ (t + 1)) x r
    unfold stage
    rw [if_pos hr, Nat.mod_eq_of_lt hr]
    have hm2 : (2 : ℕ) ^ (t + 1) / 2 = 2 ^ t := by omega
    rw [hm2]
    by_cases hc : r < 2 ^ t
    · rw [if_pos hc, hS1 r hc, show r + 2 ^ t = 2 ^ t + r by ring, hS2 r hc]
      exact (dft_split_even_lt t x r).symm
    · rw [if_neg hc]
      push_neg at hc
      obtain ⟨q, rfl⟩ : ∃ q, r = 2 ^ t + q := ⟨r - 2 ^ t, by omega⟩
      rw [show 2 ^ t + q - 2 ^ t = q by omega]
      rw [hS1 q (by omega), hS2 q (by omega)]
      exact (dft_split_odd_ge t x q).symm

theorem fftC_eq_dft (t : ℕ) (ht : t ≤ 15) (a : ℕ → ℂ) (r : ℕ) (hr : r < 2 ^ t) :
    fftC (2 ^ t) a r = dft (2 ^ t) a r := by
  rw [fftC_pow]
  rw [stages_congr t t le_rfl _ (fun i => a (reverseBits i t))
    (fun j hj => bitReverseShuffle_eq t (by omega) a j hj) r hr]
  exact stages_rev_dft t a r hr

theorem cexp2pi_orth (N : ℕ) (hN : 0 < N) (q j : ℕ) (hq : q < N) (hj : j < N) :
    ∑ p ∈ Finset.range N, cexp2pi ((q : ℝ) * (p : ℝ) / (N : ℝ)) *
      cexp2pi (-((p : ℝ) * (j : ℝ) / (N : ℝ))) = if q = j then (N : ℂ) else 0 := by
  have hterm : ∀ p : ℕ, cexp2pi ((q : ℝ) * (p : ℝ) / (N : ℝ)) *
      cexp2pi (-((p : ℝ) * (j : ℝ) / (N : ℝ))) =
        cexp2pi ((p : ℝ) * ((((q : ℤ) - (j : ℤ)) : ℤ) : ℝ) / (N : ℝ)) := by
    intro p
    rw [← cexp2pi_add]
    congr 1
    push_cast
    ring
  rw [Finset.sum_congr rfl fun p _ => hterm p]
  by_cases hqj : q = j
  · subst hqj
    rw [if_pos rfl]
    have hzero : ∀ p : ℕ,
        cexp2pi ((p : ℝ) * ((((q : ℤ) - (q : ℤ)) : ℤ) : ℝ) / (N : ℝ)) = 1 := by
      intro p
      rw [show (p : ℝ) * ((((q : ℤ) - (q : ℤ)) : ℤ) : ℝ) / (N : ℝ) = 0 by push_cast; ring]
      exact cexp2pi_zero
    rw [Finset.sum_congr rfl fun p _ => hzero p]
    simp
  · rw [if_neg hqj]
    exact cexp2pi_geom N hN ((q : ℤ) - (j : ℤ)) (by omega) (by omega)

theorem dft_inv_algebra (N : ℕ) (hN : 0 < N) (x : ℕ → ℂ) (j : ℕ) (hj : j < N) :
    conj (dft N (fun p => conj (dft N x p)) j) / (N : ℂ) = x j := by
  have hNne : ((N : ℂ)) ≠ 0 := Nat.cast_ne_zero.mpr hN.ne'
  have h1 : conj (dft N (fun p => conj (dft N x p)) j) =
      ∑ p ∈ Finset.range N, ∑ q ∈ Finset.range N,
        x q * (cexp2pi ((q : ℝ) * (p : ℝ) / (N : ℝ)) *
          cexp2pi (-((p : ℝ) * (j : ℝ) / (N : ℝ)))) := by
    unfold dft
    rw [map_sum]
    refine Finset.sum_congr rfl fun p _ => ?_
    rw [map_mul, Complex.conj_conj, cexp2pi_conj, Finset.sum_mul]
    refine Finset.sum_congr rfl fun q _ => ?_
    ring
  rw [h1, Finset.sum_comm]
  have h2 : ∀ q ∈ Finset.range N,
      (∑ p ∈ Finset.range N, x q * (cexp2pi ((q : ℝ) * (p : ℝ) / (N : ℝ)) *
        cexp2pi (-((p : ℝ) * (j : ℝ) / (N : ℝ))))) = x q * (if q = j then (N : ℂ) else 0) := by
    intro q hq
    rw [← Finset.mul_sum, cexp2pi_orth N hN q j (Finset.mem_range.mp hq) hj]
  rw [Finset.sum_congr rfl h2, Finset.sum_eq_single j]
  · rw [if_pos rfl, mul_div_assoc, div_self hNne, mul_one]
  · intro q _ hqj
    rw [if_neg hqj, mul_zero]
  · intro hjn
    exact absurd (Finset.mem_range.mpr hj) hjn

theorem invFFT_fftC (t : ℕ) (ht : t ≤ 15) (x : ℕ → ℂ) (j : ℕ) (hj : j < 2 ^ t) :
    invFFT (2 ^ t) (fftC (2 ^ t) x) j = x j := by
  have hpos : 0 < (2 : ℕ) ^ t := Nat.pos_pow_of_pos _ (by omega)
  unfold invFFT
  rw [fftC_eq_dft t ht _ j hj]
  have hdft : dft (2 ^ t) (fun p => conj (fftC (2 ^ t) x p)) j =
      dft (2 ^ t) (fun p => conj (dft (2 ^ t) x p)) j := by
    unfold dft
    refine Finset.sum_congr rfl fun p hp => ?_
    show conj (fftC (2 ^ t) x p) * _ = _
    rw [fftC_eq_dft t ht x p (Finset.mem_range.mp hp)]
    rfl
  rw [hdft]
  exact dft_inv_algebra (2 ^ t) hpos x j hj

/-- Claim C3 (confirmed): for every power-of-two size `2^t < 2^16`, the
in-place iterative `fft` (bit-reverse shuffle followed by the butterfly
stages) computes exactly the reference discrete Fourier transform on indices
`[0, 2^t)`; in particular for `N ∈ {4, 8, …, 1024}` the transform followed by
the spec's conjugate-and-rescale inverse reconstructs the original signal
(exactly, in the exact-real model — hence within any floating-point
tolerance). -/
theorem fft_dft_inverse_spec :
    (∀ t : ℕ, t ≤ 15 → ∀ (a : ℕ → ℂ) (r : ℕ), r < 2 ^ t → fftC (2 ^ t) a r = dft (2 ^ t) a r) ∧
      ∀ t : ℕ, 2 ≤ t → t ≤ 10 → ∀ (x : ℕ → ℂ) (j : ℕ), j < 2 ^ t →
        invFFT (2 ^ t) (fftC (2 ^ t) x) j = x j :=
  ⟨fun t ht a r hr => fftC_eq_dft t ht a r hr,
   fun t _ h10 x j hj => invFFT_fftC t (by omega) x j hj⟩

/-- Witness for C3's theorem: the DFT identity at size `8`, index `5`, and the
inverse identity at size `4`, index `1`, for the spectrum `n ↦ n`. -/
theorem fft_dft_inverse_spec_witness :
    fftC (2 ^ 3) (fun n => (n : ℂ)) 5 = dft (2 ^ 3) (fun n => (n : ℂ)) 5 ∧
      invFFT (2 ^ 2) (fftC (2 ^ 2) fun n => (n : ℂ)) 1 = ((1 : ℕ) : ℂ) :=
  ⟨fft_dft_inverse_spec.1 3 (by norm_num) (fun n => (n : ℂ)) 5 (by norm_num),
   fft_dft_inverse_spec.2 2 (by norm_num) (by norm_num) (fun n => (n : ℂ)) 1 (by norm_num)⟩

/-- Claim C10 (confirmed): the compiled fallback bit-twiddling path of
`bitReverseShuffle` computes `numBits(2^k) = k` for every power of two below
`2^16`; consequently the swap loop realises exactly the permutation
`i ↦ reverseBits(i, k)` on `[0, 2^k)`, and that map is a self-inverse
bijection of `[0, 2^k)` (so the shuffle permutes the array). -/
theorem bitReverseShuffle_spec :
    (∀ k : ℕ, k < 16 → numBits (2 ^ k) = k) ∧
      (∀ k : ℕ, k < 16 → ∀ (a : ℕ → ℂ) (i : ℕ), i < 2 ^ k →
        bitReverseShuffle (2 ^ k) a i = a (reverseBits i k)) ∧
      ∀ k i : ℕ, i < 2 ^ k → reverseBits i k < 2 ^ k ∧
        reverseBits (reverseBits i k) k = i :=
  ⟨numBits_two_pow,
   fun k hk a i hi => bitReverseShuffle_eq k hk a i hi,
   fun k i hi => ⟨reverseBits_lt i k, reverseBits_invol k i hi⟩⟩

/-- Witness for C10's theorem: `numBits` at `2^4`, the shuffle identity at
size `8`, index `3`, and the involution at `k = 3`, `i = 5`. -/
theorem bitReverseShuffle_spec_witness :
    numBits (2 ^ 4) = 4 ∧
      bitReverseShuffle (2 ^ 3) (fun n => (n : ℂ)) 3 = ((reverseBits 3 3 : ℕ) : ℂ) ∧
      (reverseBits 5 3 < 2 ^ 3 ∧ reverseBits (reverseBits 5 3) 3 = 5) :=
  ⟨bitReverseShuffle_spec.1 4 (by norm_num),
   bitReverseShuffle_spec.2.1 3 (by norm_num) (fun n => (n : ℂ)) 3 (by norm_num),
   bitReverseShuffle_spec.2.2 3 5 (by norm_num)⟩

end Vkav
